import Mathlib

/-!
The package logfmt: the line formatter of `internal/formatter/formatter.go`

A shallow embedding of the formatter and theorems about it.

Modelling conventions.

* A Go `string` is modelled as a list of Unicode code points (`Str`), that is, the
  lines are taken to be valid UTF-8 text.  Byte offsets (`len`, `IndexByte`, slice
  bounds) are kept as byte offsets: `byteLen` adds up the UTF-8 widths, and the slice
  operations walk the runes while counting bytes.
* A slice expression whose bounds are out of range makes the Go program stop with a
  run-time error.  Slices therefore return `Except Fault`, and so does every function
  that evaluates one.
* The `for s != ""` loop of `parseLogfmt` is a function with a fuel argument.
* What the file imports from other packages (the Unicode case tables outside ASCII,
  `encoding/json`, `time.Parse`, `fmt`'s `%v`, lipgloss styles, and the order in which
  `range` visits a map) is collected in the record `Env` and taken as a parameter.
  One `Env` fixes the order of `range` for one call of `FormatLine`; a statement about
  two calls gives the second call its own order (`withRange`).
-/

namespace Logfmt

/-- Go `string`, as the list of its runes. -/
abbrev Str := List Char

/-- Ways in which an evaluation can fail to produce a value. -/
inductive Fault where
  /-- A slice bound is larger than the length, or the bounds are in the wrong order. -/
  | outOfRange
  /-- A slice bound falls inside a multi-byte rune: the result would not be text. -/
  | splitRune
  /-- The loop was not finished within the fuel given. -/
  | outOfFuel
  deriving DecidableEq, Repr

/-- Result of an evaluation that may stop with a `Fault`. -/
abbrev Res (α : Type) := Except Fault α

instance instDecEqRes {α : Type} [DecidableEq α] : DecidableEq (Res α)
  | .ok a, .ok b => if h : a = b then isTrue (by rw [h]) else isFalse (by intro h2; cases h2; exact h rfl)
  | .error a, .error b => if h : a = b then isTrue (by rw [h]) else isFalse (by intro h2; cases h2; exact h rfl)
  | .ok _, .error _ => isFalse (by intro h; cases h)
  | .error _, .ok _ => isFalse (by intro h; cases h)

/-! ## Strings -/

/-- Go `len(s)`: the number of bytes of the UTF-8 encoding. -/
def byteLen : Str → Nat
  | [] => 0
  | c :: s => c.utf8Size + byteLen s

/-- Go `s[n:]`. -/
def sliceFrom : Nat → Str → Res Str
  | 0, s => .ok s
  | _ + 1, [] => .error .outOfRange
  | n + 1, c :: s =>
    if c.utf8Size ≤ n + 1 then sliceFrom (n + 1 - c.utf8Size) s else .error .splitRune

/-- Go `s[:n]`. -/
def sliceTo : Nat → Str → Res Str
  | 0, _ => .ok []
  | _ + 1, [] => .error .outOfRange
  | n + 1, c :: s =>
    if c.utf8Size ≤ n + 1 then
      match sliceTo (n + 1 - c.utf8Size) s with
      | .ok t => .ok (c :: t)
      | .error e => .error e
    else .error .splitRune

/-- Go `s[lo:hi]`. -/
def slice (lo hi : Nat) (s : Str) : Res Str :=
  if lo ≤ hi then
    match sliceTo hi s with
    | .ok t => sliceFrom lo t
    | .error e => .error e
  else .error .outOfRange

/-- Go `strings.IndexByte(s, b)` for an ASCII byte `b`; `none` stands for `-1`. -/
def indexByte (b : Char) : Str → Option Nat
  | [] => none
  | c :: s => if c = b then some 0 else (indexByte b s).map (· + c.utf8Size)

/-- Go `strings.HasPrefix(s, p)`. -/
def hasPrefix (s p : Str) : Bool := p.isPrefixOf s

/-- Go `strings.Index(s, sub)`; `none` stands for `-1`. -/
def index (sub : Str) : Str → Option Nat
  | [] => if sub = [] then some 0 else none
  | c :: s => if hasPrefix (c :: s) sub then some 0 else (index sub s).map (· + c.utf8Size)

/-- Go `strings.Contains(s, sub)`, which is `Index(s, sub) >= 0`. -/
def contains (s sub : Str) : Bool := (index sub s).isSome

/-- Go `unicode.IsSpace`: the ASCII space characters, U+0085, U+00A0 and the
runes with the `White_Space` property above Latin-1. -/
def isSpace (c : Char) : Bool :=
  c = '\t' || c = '\n' || c = '\x0b' || c = '\x0c' || c = '\r' || c = ' ' ||
  c.toNat = 0x85 || c.toNat = 0xA0 || c.toNat = 0x1680 ||
  (0x2000 ≤ c.toNat && c.toNat ≤ 0x200a) ||
  c.toNat = 0x2028 || c.toNat = 0x2029 || c.toNat = 0x202f || c.toNat = 0x205f ||
  c.toNat = 0x3000

/-- Go `strings.TrimSpace`. -/
def trimSpace (s : Str) : Str := (s.dropWhile isSpace).rdropWhile isSpace

/-- Go `strings.TrimLeft(s, cutset)`. -/
def trimLeft (s cutset : Str) : Str := s.dropWhile (fun c => decide (c ∈ cutset))

/-- Go `strings.Join(parts, sep)`. -/
def join (parts : List Str) (sep : Str) : Str := sep.intercalate parts

/-- Go `fmt.Sprintf("%-5s", s)`: pad on the right with spaces to five runes. -/
def padRight5 (s : Str) : Str := s ++ List.replicate (5 - s.length) ' '

/-! ## logfmt parser -/

/-- The anonymous `struct{ k, v string }`. -/
structure Pair where
  k : Str
  v : Str
  deriving DecidableEq, Repr

/-- The loop `for s != ""` of `parseLogfmt`, run for at most `fuel` iterations. -/
def parseLoop : Nat → Str → List Pair → Res (List Pair)
  | 0, s, pairs => if s = [] then .ok pairs else .error .outOfFuel
  | fuel + 1, s, pairs =>
    if s = [] then .ok pairs else
    match indexByte '=' s with
    | none => .ok (pairs ++ [⟨s, []⟩])
    | some eqIdx =>
      match sliceTo eqIdx s with
      | .error e => .error e
      | .ok k =>
      let key := trimSpace k
      match sliceFrom (eqIdx + 1) s with
      | .error e => .error e
      | .ok s =>
      if hasPrefix s ['"'] then
        match sliceFrom 1 s with
        | .error e => .error e
        | .ok s1 =>
        match index ['"'] s1 with
        | none => parseLoop fuel [] (pairs ++ [⟨key, s1⟩])
        | some e =>
          match slice 1 (e + 1) s with
          | .error e => .error e
          | .ok val =>
          match sliceFrom (e + 2) s with
          | .error e => .error e
          | .ok s2 => parseLoop fuel (trimSpace s2) (pairs ++ [⟨key, val⟩])
      else
        match indexByte ' ' s with
        | none => parseLoop fuel [] (pairs ++ [⟨key, s⟩])
        | some spIdx =>
          match sliceTo spIdx s with
          | .error e => .error e
          | .ok val =>
          match sliceFrom (spIdx + 1) s with
          | .error e => .error e
          | .ok s2 => parseLoop fuel (trimSpace s2) (pairs ++ [⟨key, val⟩])

/-- Go `parseLogfmt`.  Every iteration removes at least the `=` from `s`, so the
length of the trimmed line is enough fuel. -/
def parseLogfmt (s : Str) : Res (List Pair) :=
  let s := trimSpace s
  parseLoop s.length s []


/-! ## What the formatter imports -/

/-- The lipgloss styles declared at the top of the file. -/
inductive Style where
  | time | levelDebug | levelInfo | levelWarn | levelError | levelFatal
  | key | val | msg | sep | unknown
  deriving DecidableEq, Repr

/-- Go `map[string]α`: the list of its entries; a well-formed map has no key twice. -/
abbrev GoMap (α : Type) := List (Str × α)

/-- Go `v, ok := m[k]`. -/
def mapGet {α : Type} (m : GoMap α) (k : Str) : Option α := m.lookup k

/-- Go `m[k] = v`: overwrite the entry of `k`, or add one. -/
def mapSet {α : Type} : GoMap α → Str → α → GoMap α
  | [], k, v => [(k, v)]
  | (k1, v1) :: m, k, v => if k1 = k then (k, v) :: m else (k1, v1) :: mapSet m k v

/-- The packages the formatter calls into.  `V` is the type of a decoded JSON value
(Go `any`). -/
structure Env (V : Type) where
  /-- Go `unicode.ToUpper` on the runes outside ASCII other than U+0131 and U+017F. -/
  upperTable : Char → Char
  /-- Go `unicode.ToLower` on the runes outside ASCII other than U+0130 and U+212A. -/
  lowerTable : Char → Char
  /-- Go `style.Render(text)` of lipgloss. -/
  render : Style → Str → Str
  /-- Go `time.Parse(layout, ts)` and, when it succeeds, `t.Format("15:04:05.000")`. -/
  timeParse : Str → Str → Option Str
  /-- Go `json.Unmarshal([]byte(raw), &m)` with `m map[string]any`; `none` is an
  error. -/
  unmarshal : Str → Option (GoMap V)
  /-- Go `fmt.Sprintf("%v", v)`. -/
  sprintV : V → Str
  /-- The order in which `for k, v := range m` visits the decoded JSON object in this
  call of `FormatLine`; another call may visit it in another order (`withRange`). -/
  rangeJSON : GoMap V → GoMap V
  /-- The order in which `for k, v := range kvMap` visits the logfmt attributes in this
  call of `FormatLine`; another call may visit them in another order (`withRange`). -/
  rangeKV : GoMap Str → GoMap Str

variable {V : Type}

/-- Go `unicode.ToUpper`.  U+0131 and U+017F are the runes outside ASCII whose upper
case is an ASCII letter. -/
def toUpperRune (E : Env V) (c : Char) : Char :=
  if c.toNat < 128 then c.toUpper
  else if c.toNat = 0x131 then 'I'
  else if c.toNat = 0x17F then 'S'
  else E.upperTable c

/-- Go `unicode.ToLower`.  U+0130 and U+212A are the runes outside ASCII whose lower
case is an ASCII letter. -/
def toLowerRune (E : Env V) (c : Char) : Char :=
  if c.toNat < 128 then c.toLower
  else if c.toNat = 0x130 then 'i'
  else if c.toNat = 0x212A then 'k'
  else E.lowerTable c

/-- Go `strings.ToUpper`. -/
def toUpper (E : Env V) (s : Str) : Str := s.map (toUpperRune E)

/-- Go `strings.ToLower`. -/
def toLower (E : Env V) (s : Str) : Str := s.map (toLowerRune E)

/-! ## Level, time, key/value -/

/-- Go `formatLevel`. -/
def formatLevel (E : Env V) (level : Str) : Str :=
  let upper := toUpper E (trimSpace level)
  if upper ∈ ["DEBUG".toList, "DBG".toList, "TRACE".toList] then
    E.render .levelDebug (padRight5 upper)
  else if upper ∈ ["INFO".toList, "INF".toList] then
    E.render .levelInfo (padRight5 upper)
  else if upper ∈ ["WARN".toList, "WRN".toList, "WARNING".toList] then
    E.render .levelWarn (padRight5 "WARN".toList)
  else if upper ∈ ["ERROR".toList, "ERR".toList] then
    E.render .levelError (padRight5 "ERROR".toList)
  else if upper ∈ ["FATAL".toList, "CRIT".toList, "CRITICAL".toList] then
    E.render .levelFatal (padRight5 "FATAL".toList)
  else
    E.render .levelInfo (padRight5 upper)

/-- Go `timeFormats`: RFC3339, RFC3339Nano, three plain layouts and UnixDate. -/
def timeFormats : List Str :=
  ["2006-01-02T15:04:05Z07:00".toList,
   "2006-01-02T15:04:05.999999999Z07:00".toList,
   "2006-01-02T15:04:05".toList,
   "2006-01-02 15:04:05".toList,
   "2006/01/02 15:04:05".toList,
   "Mon Jan _2 15:04:05 MST 2006".toList]

/-- Go `formatTime`. -/
def formatTime (E : Env V) (ts : Str) : Str :=
  match timeFormats.findSome? (fun layout => E.timeParse layout ts) with
  | some t => E.render .time t
  | none => E.render .time ts

/-- Go `formatKV`. -/
def formatKV (E : Env V) (key val : Str) : Str :=
  E.render .key key ++ E.render .sep ['='] ++ E.render .val val

/-- Go `Options`. -/
structure Options where
  Filter : Str
  LevelMin : Str
  NoColor : Bool
  TimeOnly : Bool
  deriving DecidableEq, Repr

/-- Go `levelRank`. -/
def levelRank (E : Env V) (l : Str) : Nat :=
  let u := toUpper E (trimSpace l)
  if u ∈ ["DEBUG".toList, "DBG".toList, "TRACE".toList] then 0
  else if u ∈ ["INFO".toList, "INF".toList] then 1
  else if u ∈ ["WARN".toList, "WRN".toList, "WARNING".toList] then 2
  else if u ∈ ["ERROR".toList, "ERR".toList] then 3
  else if u ∈ ["FATAL".toList, "CRIT".toList, "CRITICAL".toList] then 4
  else 1

/-- Go `formatPlain`. -/
def formatPlain (E : Env V) (raw : Str) (_opts : Options) : Str :=
  E.render .unknown raw

/-- One element of the slice `parts`, before it is rendered: which of the calls
`formatTime(ts)`, `formatLevel(level)`, `styleMsg.Render(msg)`, `formatKV(k, v)`
appended it. -/
inductive Seg where
  | time (ts : Str)
  | level (l : Str)
  | msg (m : Str)
  | kv (k v : Str)
  deriving DecidableEq, Repr

/-- The string that the call behind a segment returns. -/
def Seg.render (E : Env V) : Seg → Str
  | .time ts => formatTime E ts
  | .level l => formatLevel E l
  | .msg m => E.render .msg m
  | .kv k v => formatKV E k v

/-- The three guarded `append`s shared by `formatJSON` and `formatLogfmt`. -/
def headParts (ts level msg : Str) : List Seg :=
  (if ts ≠ [] then [Seg.time ts] else []) ++
  (if level ≠ [] then [Seg.level level] else []) ++
  (if msg ≠ [] then [Seg.msg msg] else [])

/-- The test `opts.LevelMin != "" && levelRank(level) < levelRank(opts.LevelMin)`. -/
def belowMin (E : Env V) (opts : Options) (level : Str) : Bool :=
  decide (opts.LevelMin ≠ [] ∧ levelRank E level < levelRank E opts.LevelMin)

/-! ## JSON -/

/-- Go `jsonLevelKeys`. -/
def jsonLevelKeys : List Str :=
  ["level".toList, "lvl".toList, "severity".toList, "loglevel".toList]
/-- Go `jsonMsgKeys`. -/
def jsonMsgKeys : List Str :=
  ["msg".toList, "message".toList, "text".toList, "body".toList]
/-- Go `jsonTimeKeys`. -/
def jsonTimeKeys : List Str :=
  ["time".toList, "ts".toList, "timestamp".toList, "t".toList, "@timestamp".toList]

/-- Go `jsonFind`. -/
def jsonFind (E : Env V) (m : GoMap V) : List Str → Str × Str
  | [] => ([], [])
  | k :: keys =>
    match mapGet m k with
    | some v => (k, E.sprintV v)
    | none => jsonFind E m keys

/-- The slice `parts` of `formatJSON` for the decoded object `m`. -/
def jsonParts (E : Env V) (m : GoMap V) (opts : Options) : List Seg :=
  let (levelKey, level) := jsonFind E m jsonLevelKeys
  let (msgKey, msg) := jsonFind E m jsonMsgKeys
  let (timeKey, ts) := jsonFind E m jsonTimeKeys
  headParts ts level msg ++
  (if ¬ opts.TimeOnly then
    let skip : GoMap Bool := mapSet (mapSet (mapSet [] levelKey true) msgKey true) timeKey true
    (E.rangeJSON m).filterMap (fun kv =>
      if (mapGet skip kv.1).getD false then none else some (Seg.kv kv.1 (E.sprintV kv.2)))
  else [])

/-- Go `formatJSON`. -/
def formatJSON (E : Env V) (raw : Str) (opts : Options) : Str :=
  match E.unmarshal raw with
  | none => formatPlain E raw opts
  | some m =>
    let level := (jsonFind E m jsonLevelKeys).2
    if belowMin E opts level then []
    else join ((jsonParts E m opts).map (Seg.render E)) [' ']

/-! ## logfmt -/

/-- The variables `level`, `msg`, `ts`, `kvMap` of `formatLogfmt`. -/
structure Fields where
  level : Str
  msg : Str
  ts : Str
  kvMap : GoMap Str
  deriving DecidableEq, Repr

/-- The body of the loop `for _, p := range pairs` of `formatLogfmt`. -/
def assign (E : Env V) (f : Fields) (p : Pair) : Fields :=
  let key := toLower E p.k
  if key ∈ ["level".toList, "lvl".toList, "severity".toList] then { f with level := p.v }
  else if key ∈ ["msg".toList, "message".toList] then { f with msg := p.v }
  else if key ∈ ["time".toList, "ts".toList, "timestamp".toList, "t".toList] then
    { f with ts := p.v }
  else { f with kvMap := mapSet f.kvMap p.k p.v }

/-- The state of `formatLogfmt` after the loop over `pairs`. -/
def collect (E : Env V) (pairs : List Pair) : Fields :=
  pairs.foldl (assign E) ⟨[], [], [], []⟩

/-- The slice `parts` of `formatLogfmt`. -/
def logfmtParts (E : Env V) (f : Fields) (opts : Options) : List Seg :=
  headParts f.ts f.level f.msg ++
  (if ¬ opts.TimeOnly then (E.rangeKV f.kvMap).map (fun kv => Seg.kv kv.1 kv.2) else [])

/-- Go `formatLogfmt`. -/
def formatLogfmt (E : Env V) (raw : Str) (opts : Options) : Res Str :=
  match parseLogfmt raw with
  | .error e => .error e
  | .ok pairs =>
    let f := collect E pairs
    if belowMin E opts f.level then .ok []
    else
      let parts := logfmtParts E f opts
      if parts.length = 0 then .ok (formatPlain E raw opts)
      else .ok (join (parts.map (Seg.render E)) [' '])

/-! ## Prefix format -/

/-- Go `knownLevelPrefixes`. -/
def knownLevelPrefixes : List Str :=
  ["TRACE".toList, "DEBUG".toList, "DBG".toList, "INFO".toList, "INF".toList,
   "WARN".toList, "WARNING".toList, "WRN".toList, "ERROR".toList, "ERR".toList,
   "FATAL".toList, "CRIT".toList, "CRITICAL".toList]

/-- The loop of `tryPrefixFormat` over the remaining prefixes; `none` is `ok = false`. -/
def tryPrefixLoop (raw upper : Str) : List Str → Res (Option (Str × Str))
  | [] => .ok none
  | lvl :: lvls =>
    if ¬ hasPrefix upper lvl then tryPrefixLoop raw upper lvls
    else
      match sliceFrom (byteLen lvl) raw with
      | .error e => .error e
      | .ok rest =>
        let rest := trimLeft rest ": -][ \t".toList
        let rest := if rest = [] ∧ byteLen raw = byteLen lvl then [] else rest
        .ok (some (lvl, rest))

/-- Go `tryPrefixFormat`. -/
def tryPrefixFormat (E : Env V) (raw : Str) : Res (Option (Str × Str)) :=
  tryPrefixLoop raw (toUpper E raw) knownLevelPrefixes

/-! ## Dispatch -/

/-- Go `FormatLine`; the empty string says that the line is skipped. -/
def FormatLine (E : Env V) (raw : Str) (opts : Options) : Res Str :=
  let raw := trimSpace raw
  if raw = [] then .ok []
  else if opts.Filter ≠ [] ∧ ¬ contains (toLower E raw) (toLower E opts.Filter) then .ok []
  else if hasPrefix raw ['{'] then .ok (formatJSON E raw opts)
  else if contains raw ['='] then formatLogfmt E raw opts
  else
    match tryPrefixFormat E raw with
    | .error e => .error e
    | .ok (some (level, msg)) =>
      if belowMin E opts level then .ok []
      else
        let parts := [Seg.level level] ++ (if msg ≠ [] then [Seg.msg msg] else [])
        .ok (join (parts.map (Seg.render E)) [' '])
    | .ok none => .ok (formatPlain E raw opts)

/-! ## Concrete environments -/

/-- Go `json.Unmarshal` on the three JSON texts used in the examples, a decoded value
being kept as its `%v` text; every other text is outside the table. -/
def sampleUnmarshal (raw : Str) : Option (GoMap Str) :=
  if raw = "\x7b\x7d".toList then some []
  else if raw = "\x7b\"a\":1\x7d".toList then some [(['a'], ['1'])]
  else if raw = "\x7b\"\":1,\"level\":\"info\"\x7d".toList then
    some [([], ['1']), ("level".toList, "info".toList)]
  else none

/-- An environment for evaluating sample lines on a terminal without colour support:
`Render` returns the text.  The case tables leave the runes outside ASCII alone, no
timestamp layout matches, and maps are visited in insertion order. -/
def plainEnv : Env Str where
  upperTable := fun c => c
  lowerTable := fun c => c
  render := fun _ s => s
  timeParse := fun _ _ => none
  unmarshal := sampleUnmarshal
  sprintV := fun v => v
  rangeJSON := fun m => m
  rangeKV := fun m => m

/-- The 256-colour number of each style, as declared in the source. -/
def Style.colour : Style → Str
  | .time => "240".toList
  | .levelDebug => "63".toList
  | .levelInfo => "86".toList
  | .levelWarn => "214".toList
  | .levelError => "196".toList
  | .levelFatal => "197".toList
  | .key => "111".toList
  | .val => "252".toList
  | .msg => "255".toList
  | .sep => "240".toList
  | .unknown => "245".toList

/-- The environment `plainEnv` on a terminal with 256 colours: `Render` puts the text
between the escape sequence selecting the foreground colour of the style and the
reset sequence (bold, italic and underline are left out). -/
def colourEnv : Env Str :=
  { plainEnv with
    render := fun st s => "\x1b[38;5;".toList ++ st.colour ++ ['m'] ++ s ++ "\x1b[0m".toList }

/-- The zero value of `Options`: no filter, no minimum level. -/
def noOpts : Options := ⟨[], [], false, false⟩

/-- Whether a key is one of those that `formatLogfmt` reads as level, message or
timestamp (the first three cases of its `switch`). -/
def recognised (E : Env V) (k : Str) : Bool :=
  decide (toLower E k ∈ ["level".toList, "lvl".toList, "severity".toList]) ||
  decide (toLower E k ∈ ["msg".toList, "message".toList]) ||
  decide (toLower E k ∈ ["time".toList, "ts".toList, "timestamp".toList, "t".toList])

/-- The key of a `formatKV` segment. -/
def Seg.key? : Seg → Option Str
  | .kv k _ => some k
  | _ => none

/-- The value that the last pair with key `k` carries. -/
def lastValue (pairs : List Pair) (k : Str) : Option Str :=
  ((pairs.filter (fun p => decide (p.k = k))).getLast?).map (fun p => p.v)

/-- The text of one `key=value` token. -/
def token (p : Pair) : Str := p.k ++ '=' :: p.v

/-- A key as the round trip needs it: not empty, without white space and `=`. -/
def goodKey (k : Str) : Prop := k ≠ [] ∧ (∀ c ∈ k, isSpace c = false) ∧ '=' ∉ k

/-- A value as the round trip needs it: without white space, not opening a quote. -/
def goodVal (v : Str) : Prop := (∀ c ∈ v, isSpace c = false) ∧ v.head? ≠ some '"'

/-- A text that neither starts nor ends with white space. -/
def Trimmed (s : Str) : Prop :=
  (∀ c ∈ s.head?, isSpace c = false) ∧ (∀ c ∈ s.getLast?, isSpace c = false)

instance instDecidableTrimmed (s : Str) : Decidable (Trimmed s) :=
  inferInstanceAs (Decidable (_ ∧ _))

/-! ## Definitions for the level normaliser -/

/-- The reference table of the specification: each synonym, in upper case, with the
rank of its severity tier (Debug 0, Info 1, Warn 2, Error 3, Fatal 4). -/
def rankTable : List (Str × Nat) :=
  [("DEBUG".toList, 0), ("DBG".toList, 0), ("TRACE".toList, 0),
   ("INFO".toList, 1), ("INF".toList, 1),
   ("WARN".toList, 2), ("WRN".toList, 2), ("WARNING".toList, 2),
   ("ERROR".toList, 3), ("ERR".toList, 3),
   ("FATAL".toList, 4), ("CRIT".toList, 4), ("CRITICAL".toList, 4)]

/-- The rank that the specification gives to a token in upper case: the entry of the
reference table, and Info (1) for a token that is not in the table. -/
def specRank (u : Str) : Nat := (rankTable.lookup u).getD 1

/-- The text that `formatLevel` passes to `Render`: its `fmt.Sprintf("%-5s", ...)`. -/
def levelLabel (E : Env V) (level : Str) : Str :=
  let upper := toUpper E (trimSpace level)
  if upper ∈ ["DEBUG".toList, "DBG".toList, "TRACE".toList] then padRight5 upper
  else if upper ∈ ["INFO".toList, "INF".toList] then padRight5 upper
  else if upper ∈ ["WARN".toList, "WRN".toList, "WARNING".toList] then padRight5 "WARN".toList
  else if upper ∈ ["ERROR".toList, "ERR".toList] then padRight5 "ERROR".toList
  else if upper ∈ ["FATAL".toList, "CRIT".toList, "CRITICAL".toList] then
    padRight5 "FATAL".toList
  else padRight5 upper

/-- The style with which `formatLevel` renders the label. -/
def levelStyle (E : Env V) (level : Str) : Style :=
  let upper := toUpper E (trimSpace level)
  if upper ∈ ["DEBUG".toList, "DBG".toList, "TRACE".toList] then .levelDebug
  else if upper ∈ ["INFO".toList, "INF".toList] then .levelInfo
  else if upper ∈ ["WARN".toList, "WRN".toList, "WARNING".toList] then .levelWarn
  else if upper ∈ ["ERROR".toList, "ERR".toList] then .levelError
  else if upper ∈ ["FATAL".toList, "CRIT".toList, "CRITICAL".toList] then .levelFatal
  else .levelInfo

/-- A text of ASCII characters. -/
def IsAscii (s : Str) : Prop := ∀ c ∈ s, c.toNat < 128

instance instDecidableIsAscii (s : Str) : Decidable (IsAscii s) :=
  inferInstanceAs (Decidable (∀ c ∈ s, c.toNat < 128))

/-- The text that `formatLevel` pads, for the upper-cased token `upper`. -/
def canonText (upper : Str) : Str :=
  if upper ∈ ["WARN".toList, "WRN".toList, "WARNING".toList] then "WARN".toList
  else if upper ∈ ["ERROR".toList, "ERR".toList] then "ERROR".toList
  else if upper ∈ ["FATAL".toList, "CRIT".toList, "CRITICAL".toList] then "FATAL".toList
  else upper

/-- Whether `raw[n:]` ends between two runes for every line `raw` whose upper-cased
form starts with the ASCII token `lvl`, when U+0131 and U+017F (two bytes each, upper
case `I` and `S`) are the only runes outside ASCII with an ASCII upper case: at a
letter `I` or `S` both a one-byte and a two-byte rune are followed. -/
def safeCut : Str → Nat → Bool
  | _, 0 => true
  | [], _ + 1 => false
  | c :: l, n + 1 =>
    decide (c.toNat < 128) && safeCut l n &&
      (if c = 'I' ∨ c = 'S' then decide (2 ≤ n + 1) && safeCut l (n - 1) else true)

/-- What one iteration of the loop of `parseLogfmt` does. -/
inductive Step where
  /-- The bare-word branch: the pair is appended and the loop is left by `break`. -/
  | stop (p : Pair)
  /-- The pair is appended and the loop goes on with the new value of `s`. -/
  | next (p : Pair) (s : Str)
  deriving DecidableEq, Repr

/-- The body of the loop `for s != ""` of `parseLogfmt`, for the current `s`. -/
def parseStep (s : Str) : Res Step :=
  match indexByte '=' s with
  | none => .ok (.stop ⟨s, []⟩)
  | some eqIdx =>
    match sliceTo eqIdx s with
    | .error e => .error e
    | .ok k =>
    let key := trimSpace k
    match sliceFrom (eqIdx + 1) s with
    | .error e => .error e
    | .ok s =>
    if hasPrefix s ['"'] then
      match sliceFrom 1 s with
      | .error e => .error e
      | .ok s1 =>
      match index ['"'] s1 with
      | none => .ok (.next ⟨key, s1⟩ [])
      | some e =>
        match slice 1 (e + 1) s with
        | .error e => .error e
        | .ok val =>
        match sliceFrom (e + 2) s with
        | .error e => .error e
        | .ok s2 => .ok (.next ⟨key, val⟩ (trimSpace s2))
    else
      match indexByte ' ' s with
      | none => .ok (.next ⟨key, s⟩ [])
      | some spIdx =>
        match sliceTo spIdx s with
        | .error e => .error e
        | .ok val =>
        match sliceFrom (spIdx + 1) s with
        | .error e => .error e
        | .ok s2 => .ok (.next ⟨key, val⟩ (trimSpace s2))

/-- The environment of another call of `FormatLine`: the same packages, with `range`
visiting the maps in another order. -/
def withRange (E : Env V) (rangeKV : GoMap Str → GoMap Str) (rangeJSON : GoMap V → GoMap V) :
    Env V :=
  { E with rangeKV := rangeKV, rangeJSON := rangeJSON }

/-- The first key of `keys` that the object `m` has, if it has one: the key whose
value an extractor of the specification consumes. -/
def firstPresent (m : GoMap V) : List Str → Option Str
  | [] => none
  | k :: keys => if (mapGet m k).isSome then some k else firstPresent m keys

/-- The text of the value under the first key of `keys` that `m` has; empty when it
has none of them. -/
def valueOf (E : Env V) (m : GoMap V) (keys : List Str) : Str :=
  match firstPresent m keys with
  | some k => ((mapGet m k).map E.sprintV).getD []
  | none => []

/-- The attributes of a decoded object as the specification has them: the entries
whose key is not the one consumed as level, as message or as timestamp, each value
as its text. -/
def jsonAttrs (E : Env V) (m : GoMap V) : GoMap Str :=
  (m.filter (fun kv => decide (some kv.1 ≠ firstPresent m jsonLevelKeys ∧
    some kv.1 ≠ firstPresent m jsonMsgKeys ∧ some kv.1 ≠ firstPresent m jsonTimeKeys))).map
    (fun kv => (kv.1, E.sprintV kv.2))

/-- The display form of a timestamp: the result of the first layout of `timeFormats`
that parses it, and the text itself when no layout does. -/
def timeText (E : Env V) (ts : Str) : Str :=
  (timeFormats.findSome? (fun layout => E.timeParse layout ts)).getD ts

/-- The rendering order of the specification: the timestamp segment (the display form
in the time style), the level segment (the label in the style of its tier) and the
message segment (the text in the message style), each only if its text is not empty,
then, unless `timeOnly`, one segment per attribute made of the key, the separator `=`
and the value, each in its style. -/
def segmentsInOrder (E : Env V) (ts level msg : Str) (timeOnly : Bool) (attrs : GoMap Str) :
    List Str :=
  (if ts ≠ [] then [E.render Style.time (timeText E ts)] else []) ++
  (if level ≠ [] then [E.render (levelStyle E level) (levelLabel E level)] else []) ++
  (if msg ≠ [] then [E.render Style.msg msg] else []) ++
  (if timeOnly = true then []
    else attrs.map (fun kv =>
      E.render Style.key kv.1 ++ E.render Style.sep ['='] ++ E.render Style.val kv.2))

/-! ## Lemmas on strings -/

theorem sliceTo_append (p q : Str) : sliceTo (byteLen p) (p ++ q) = .ok p := by
  induction p with
  | nil => cases q <;> simp [byteLen, sliceTo]
  | cons c p ih =>
    have hpos := Char.utf8Size_pos c
    obtain ⟨n, hn⟩ : ∃ n, c.utf8Size + byteLen p = n + 1 := ⟨c.utf8Size + byteLen p - 1, by omega⟩
    simp only [byteLen, List.cons_append, hn, sliceTo]
    have h1 : c.utf8Size ≤ n + 1 := by omega
    have h2 : n + 1 - c.utf8Size = byteLen p := by omega
    rw [if_pos h1, h2, ih]

theorem sliceFrom_append_add (p q : Str) (n : Nat) :
    sliceFrom (byteLen p + n) (p ++ q) = sliceFrom n q := by
  induction p with
  | nil => simp [byteLen]
  | cons c p ih =>
    have hpos := Char.utf8Size_pos c
    obtain ⟨m, hm⟩ : ∃ m, c.utf8Size + byteLen p + n = m + 1 :=
      ⟨c.utf8Size + byteLen p + n - 1, by omega⟩
    simp only [byteLen, List.cons_append, hm, sliceFrom]
    have h1 : c.utf8Size ≤ m + 1 := by omega
    have h2 : m + 1 - c.utf8Size = byteLen p + n := by omega
    rw [if_pos h1, h2, ih]

theorem sliceFrom_append (p q : Str) : sliceFrom (byteLen p) (p ++ q) = .ok q := by
  have h := sliceFrom_append_add p q 0
  simpa [sliceFrom] using h

theorem sliceFrom_append_succ (p q : Str) (c : Char) (hc : c.utf8Size = 1) :
    sliceFrom (byteLen p + 1) (p ++ c :: q) = .ok q := by
  rw [sliceFrom_append_add]
  simp [sliceFrom, hc]

theorem indexByte_append (b : Char) (p q : Str) (hp : b ∉ p) :
    indexByte b (p ++ b :: q) = some (byteLen p) := by
  induction p with
  | nil => simp [indexByte, byteLen]
  | cons c p ih =>
    have hc : c ≠ b := fun h => hp (by simp [h])
    have hp2 : b ∉ p := fun h => hp (by simp [h])
    simp [indexByte, hc, ih hp2, byteLen, Nat.add_comm]

theorem indexByte_eq_none (b : Char) (s : Str) (hs : b ∉ s) : indexByte b s = none := by
  induction s with
  | nil => rfl
  | cons c s ih =>
    have hc : c ≠ b := fun h => hs (by simp [h])
    have hs2 : b ∉ s := fun h => hs (by simp [h])
    simp [indexByte, hc, ih hs2]

theorem index_singleton (b : Char) (s : Str) : index [b] s = indexByte b s := by
  induction s with
  | nil => simp [index, indexByte]
  | cons c s ih =>
    by_cases h : c = b
    · simp [index, indexByte, hasPrefix, h]
    · have h2 : ¬ b = c := fun e => h e.symm
      simp [index, indexByte, hasPrefix, h, h2, ih]

theorem trimSpace_nil : trimSpace [] = [] := by
  simp [trimSpace]

theorem trimSpace_eq_self (s : Str) (h1 : ∀ c, s.head? = some c → isSpace c = false)
    (h2 : ∀ c, s.getLast? = some c → isSpace c = false) : trimSpace s = s := by
  cases s with
  | nil => exact trimSpace_nil
  | cons c s =>
    have hc : isSpace c = false := h1 c rfl
    have hd : List.dropWhile isSpace (c :: s) = c :: s := by
      simp [List.dropWhile, hc]
    unfold trimSpace
    rw [hd, List.rdropWhile_eq_self_iff]
    intro hl
    have := h2 ((c :: s).getLast hl) (List.getLast?_eq_getLast _ hl)
    simp [this]

theorem byteLen_append (p q : Str) : byteLen (p ++ q) = byteLen p + byteLen q := by
  induction p with
  | nil => simp [byteLen]
  | cons c p ih => simp [byteLen, ih, Nat.add_assoc]

theorem space_isSpace : isSpace ' ' = true := by decide

theorem eq_not_isSpace : isSpace '=' = false := by decide

theorem quote_not_isSpace : isSpace '"' = false := by decide

theorem quote_size : '"'.utf8Size = 1 := rfl

theorem parseLoop_nil (fuel : Nat) (acc : List Pair) : parseLoop fuel [] acc = .ok acc := by
  cases fuel <;> simp [parseLoop]

theorem goodKey_trim (k : Str) (hk : goodKey k) : trimSpace k = k := by
  apply trimSpace_eq_self
  · intro c hc
    exact hk.2.1 c (List.mem_of_mem_head? hc)
  · intro c hc
    exact hk.2.1 c (List.mem_of_mem_getLast? hc)

theorem goodVal_noSpace (v : Str) (hv : goodVal v) : ' ' ∉ v := by
  intro h
  have := hv.1 ' ' h
  rw [space_isSpace] at this
  cases this

theorem goodVal_noQuote (v tail : Str) (hv : goodVal v) (ht : tail.head? ≠ some '"') :
    hasPrefix (v ++ tail) ['"'] = false := by
  cases v with
  | nil =>
    cases tail with
    | nil => simp [hasPrefix]
    | cons c t =>
      have : c ≠ '"' := fun h => ht (by simp [h])
      simp [hasPrefix, List.isPrefixOf, this, Ne.symm this]
  | cons c v =>
    have : c ≠ '"' := fun h => hv.2 (by simp [h])
    simp [hasPrefix, List.isPrefixOf, this, Ne.symm this]

/-- One iteration on an unquoted token that is followed by a space. -/
theorem parseLoop_token_space (fuel : Nat) (k v tail : Str) (acc : List Pair)
    (hk : goodKey k) (hv : goodVal v) :
    parseLoop (fuel + 1) (k ++ '=' :: (v ++ ' ' :: tail)) acc =
      parseLoop fuel (trimSpace tail) (acc ++ [⟨k, v⟩]) := by
  have hne : k ++ '=' :: (v ++ ' ' :: tail) ≠ [] := by simp
  have hq : hasPrefix (v ++ ' ' :: tail) ['"'] = false :=
    goodVal_noQuote v (' ' :: tail) hv (by simp)
  rw [parseLoop]
  simp only [hne, if_false, indexByte_append '=' k _ hk.2.2, sliceTo_append,
    sliceFrom_append_succ k _ '=' rfl, hq, Bool.false_eq_true,
    indexByte_append ' ' v tail (goodVal_noSpace v hv),
    sliceFrom_append_succ v tail ' ' rfl, goodKey_trim k hk]

/-- One iteration on an unquoted token that ends the line. -/
theorem parseLoop_token_end (fuel : Nat) (k v : Str) (acc : List Pair)
    (hk : goodKey k) (hv : goodVal v) :
    parseLoop (fuel + 1) (k ++ '=' :: v) acc = .ok (acc ++ [⟨k, v⟩]) := by
  have hne : k ++ '=' :: v ≠ [] := by simp
  have hq : hasPrefix v ['"'] = false := by
    have := goodVal_noQuote v [] hv (by simp)
    simpa using this
  rw [parseLoop]
  simp only [hne, if_false, indexByte_append '=' k _ hk.2.2, sliceTo_append,
    sliceFrom_append_succ k _ '=' rfl, hq, Bool.false_eq_true,
    indexByte_eq_none ' ' v (goodVal_noSpace v hv), goodKey_trim k hk, parseLoop_nil]

/-- One iteration on a token whose value is quoted and closes the line. -/
theorem parseLoop_quoted_end (fuel : Nat) (k v : Str) (acc : List Pair)
    (hk : goodKey k) (hv : '"' ∉ v) :
    parseLoop (fuel + 1) (k ++ '=' :: '"' :: (v ++ ['"'])) acc = .ok (acc ++ [⟨k, v⟩]) := by
  have hne : k ++ '=' :: '"' :: (v ++ ['"']) ≠ [] := by simp
  have hq : hasPrefix ('"' :: (v ++ ['"'])) ['"'] = true := by
    simp [hasPrefix, List.isPrefixOf]
  have h1 : sliceFrom 1 ('"' :: (v ++ ['"'])) = .ok (v ++ ['"']) := by
    simp [sliceFrom, quote_size]
  have h2 : slice 1 (byteLen v + 1) ('"' :: (v ++ ['"'])) = .ok v := by
    have hto : sliceTo (byteLen v + 1) ('"' :: (v ++ ['"'])) = .ok ('"' :: v) := by
      have := sliceTo_append ('"' :: v) ['"']
      simpa [byteLen, Nat.add_comm, quote_size] using this
    simp [slice, hto, sliceFrom, quote_size]
  have h3 : sliceFrom (byteLen v + 2) ('"' :: (v ++ ['"'])) = .ok [] := by
    have := sliceFrom_append ('"' :: (v ++ ['"'])) []
    simpa [byteLen, byteLen_append, quote_size, Nat.add_comm, Nat.add_left_comm] using this
  rw [parseLoop]
  simp only [hne, if_false, indexByte_append '=' k _ hk.2.2, sliceTo_append,
    sliceFrom_append_succ k _ '=' rfl, hq, if_true, h1, index_singleton,
    indexByte_append '"' v [] hv, h2, h3, goodKey_trim k hk, trimSpace_nil, parseLoop_nil]

theorem trimSpace_of_trimmed (s : Str) (h : Trimmed s) : trimSpace s = s :=
  trimSpace_eq_self s h.1 h.2

theorem join_singleton (a sep : Str) : join [a] sep = a := by
  simp [join, List.intercalate]

theorem join_cons (a sep : Str) (l : List Str) (hl : l ≠ []) :
    join (a :: l) sep = a ++ (sep ++ join l sep) := by
  cases l with
  | nil => exact absurd rfl hl
  | cons b l => simp [join, List.intercalate]

theorem trimmed_append (a b : Str) (ha : a ≠ []) (hb : b ≠ [])
    (h1 : ∀ c, a.head? = some c → isSpace c = false)
    (h2 : ∀ c, b.getLast? = some c → isSpace c = false) (mid : Str) :
    Trimmed (a ++ (mid ++ b)) := by
  constructor
  · intro c hc
    cases a with
    | nil => exact absurd rfl ha
    | cons x a => exact h1 c (by simpa using hc)
  · intro c hc
    apply h2 c
    rw [← List.append_assoc, List.getLast?_append_of_ne_nil _ hb] at hc
    exact hc

theorem token_trimmed (p : Pair) (hk : goodKey p.k) (hv : goodVal p.v) : Trimmed (token p) := by
  have h := trimmed_append p.k ['='] hk.1 (by simp)
    (fun c hc => hk.2.1 c (List.mem_of_mem_head? hc)) (fun c hc => by
      simp at hc
      rw [← hc]; exact eq_not_isSpace) []
  constructor
  · intro c hc
    apply h.1 c
    cases hkk : p.k with
    | nil => exact absurd hkk hk.1
    | cons x k => simpa [token, hkk] using hc
  · intro c hc
    unfold token at hc
    cases hvv : p.v with
    | nil =>
      rw [hvv, List.getLast?_append_of_ne_nil _ (by simp)] at hc
      simp at hc
      rw [← hc]; exact eq_not_isSpace
    | cons y v =>
      rw [hvv, List.getLast?_append_of_ne_nil _ (by simp), List.getLast?_cons_cons] at hc
      exact hv.1 c (by rw [hvv]; exact List.mem_of_mem_getLast? hc)

theorem join_ne_nil (x : Str) (hx : x ≠ []) (l : List Str) : join (l ++ [x]) [' '] ≠ [] := by
  cases l with
  | nil => simpa [join_singleton] using hx
  | cons a l => rw [List.cons_append, join_cons _ _ _ (by simp)]; simp

theorem join_trimmed (x : Str) (hx0 : x ≠ []) (hxt : Trimmed x) (ps : List Pair)
    (hps : ∀ p ∈ ps, goodKey p.k ∧ goodVal p.v) :
    Trimmed (join (ps.map token ++ [x]) [' ']) := by
  induction ps with
  | nil => simpa [join_singleton] using hxt
  | cons p ps ih =>
    have ihh := ih (fun q hq => hps q (List.mem_cons_of_mem _ hq))
    have hp := hps p (List.mem_cons_self _ _)
    have hne := join_ne_nil x hx0 (ps.map token)
    rw [List.map_cons, List.cons_append, join_cons _ _ _ (by simp)]
    have htk : token p ≠ [] := by simp [token]
    exact trimmed_append (token p) _ htk hne (token_trimmed p hp.1 hp.2).1 ihh.2 [' ']

/-- The loop on well-formed tokens followed by a last item `x` that one more
iteration turns into the pair `px`. -/
theorem parseLoop_tokens_then (x : Str) (px : Pair) (hx0 : x ≠ []) (hxt : Trimmed x)
    (hx : ∀ fuel acc, parseLoop (fuel + 1) x acc = .ok (acc ++ [px])) (ps : List Pair)
    (hps : ∀ p ∈ ps, goodKey p.k ∧ goodVal p.v) :
    ∀ fuel acc, (join (ps.map token ++ [x]) [' ']).length ≤ fuel →
      parseLoop fuel (join (ps.map token ++ [x]) [' ']) acc = .ok (acc ++ (ps ++ [px])) := by
  induction ps with
  | nil =>
    intro fuel acc hf
    simp only [List.map_nil, List.nil_append, join_singleton] at hf ⊢
    cases fuel with
    | zero => exact absurd (List.length_eq_zero.mp (Nat.le_zero.mp hf)) hx0
    | succ n => exact hx n acc
  | cons p ps ih =>
    intro fuel acc hf
    have hp := hps p (List.mem_cons_self _ _)
    have hps2 : ∀ q ∈ ps, goodKey q.k ∧ goodVal q.v :=
      fun q hq => hps q (List.mem_cons_of_mem _ hq)
    have hj : join ((p :: ps).map token ++ [x]) [' '] =
        p.k ++ '=' :: (p.v ++ ' ' :: join (ps.map token ++ [x]) [' ']) := by
      rw [List.map_cons, List.cons_append, join_cons _ _ _ (by simp)]
      simp [token]
    rw [hj] at hf ⊢
    cases fuel with
    | zero => simp at hf
    | succ n =>
      rw [parseLoop_token_space n p.k p.v _ acc hp.1 hp.2,
        trimSpace_of_trimmed _ (join_trimmed x hx0 hxt ps hps2), ih hps2 n _ (by
          simp only [List.length_append, List.length_cons] at hf
          omega)]
      simp

/-- C5: for a key `k` that is non-empty and has no white space and no `=`, and a value
`v` without a double quote (spaces, `=` and the empty value allowed), `parseLogfmt` on
`k="v"` returns exactly the one pair `(k, v)`: the quotes are stripped and the value
is otherwise untouched. -/
theorem C5_quoted_value (k v : Str) (hk0 : k ≠ []) (hks : ∀ c ∈ k, isSpace c = false)
    (hke : '=' ∉ k) (hv : '"' ∉ v) :
    parseLogfmt (k ++ "=\"".toList ++ v ++ "\"".toList) = .ok [⟨k, v⟩] := by
  have hk : goodKey k := ⟨hk0, hks, hke⟩
  have hline : k ++ "=\"".toList ++ v ++ "\"".toList = k ++ '=' :: '"' :: (v ++ ['"']) := by
    simp
  have htr : Trimmed (k ++ '=' :: '"' :: (v ++ ['"'])) := by
    have := trimmed_append k ['"'] hk0 (by simp)
      (fun c hc => hks c (List.mem_of_mem_head? hc)) (fun c hc => by
        simp at hc
        rw [← hc]; exact quote_not_isSpace) ('=' :: '"' :: v)
    simpa using this
  have hpos : 0 < (k ++ '=' :: '"' :: (v ++ ['"'])).length := by simp
  obtain ⟨n, hn⟩ : ∃ n, (k ++ '=' :: '"' :: (v ++ ['"'])).length = n + 1 :=
    ⟨(k ++ '=' :: '"' :: (v ++ ['"'])).length - 1, by omega⟩
  unfold parseLogfmt
  simp only [hline, trimSpace_of_trimmed _ htr, hn]
  rw [parseLoop_quoted_end n k v [] hk hv]
  rfl

/-- Witness of C5: `msg="disk low = bad"`. -/
theorem C5_quoted_value_witness :
    parseLogfmt ("msg".toList ++ "=\"".toList ++ "disk low = bad".toList ++ "\"".toList) =
      .ok [⟨"msg".toList, "disk low = bad".toList⟩] :=
  C5_quoted_value "msg".toList "disk low = bad".toList (by decide) (by decide) (by decide)
    (by decide)

/-- C6: round trip of the logfmt parser.  For a non-empty list of pairs whose keys
are non-empty and have no white space and no `=`, and whose values have no white
space and do not start with a double quote, `parseLogfmt` on the tokens `k=v` joined
by single spaces returns exactly that list, in the same order. -/
theorem C6_round_trip (ps : List Pair) (hne : ps ≠ [])
    (hk : ∀ p ∈ ps, p.k ≠ [] ∧ (∀ c ∈ p.k, isSpace c = false) ∧ '=' ∉ p.k)
    (hv : ∀ p ∈ ps, (∀ c ∈ p.v, isSpace c = false) ∧ p.v.head? ≠ some '"') :
    parseLogfmt (join (ps.map (fun p => p.k ++ "=".toList ++ p.v)) " ".toList) = .ok ps := by
  have hmap : ps.map (fun p => p.k ++ "=".toList ++ p.v) = ps.map token := by
    apply List.map_congr_left
    intro p _
    simp [token]
  have hsp : " ".toList = [' '] := rfl
  rw [hmap, hsp]
  have hsplit := List.dropLast_append_getLast hne
  have hl := List.getLast_mem hne
  have hlast : goodKey (ps.getLast hne).k ∧ goodVal (ps.getLast hne).v := ⟨hk _ hl, hv _ hl⟩
  have hinit : ∀ p ∈ ps.dropLast, goodKey p.k ∧ goodVal p.v :=
    fun p hp => ⟨hk p (List.mem_of_mem_dropLast hp), hv p (List.mem_of_mem_dropLast hp)⟩
  have hx0 : token (ps.getLast hne) ≠ [] := by simp [token]
  have hxt := token_trimmed _ hlast.1 hlast.2
  have hjoin : ps.map token = ps.dropLast.map token ++ [token (ps.getLast hne)] := by
    conv_lhs => rw [← hsplit]
    simp
  have key := parseLoop_tokens_then (token (ps.getLast hne)) (ps.getLast hne) hx0 hxt
    (fun fuel acc => parseLoop_token_end fuel _ _ acc hlast.1 hlast.2) ps.dropLast hinit
  unfold parseLogfmt
  simp only [hjoin, trimSpace_of_trimmed _ (join_trimmed _ hx0 hxt _ hinit)]
  rw [key _ [] (Nat.le_refl _), List.nil_append, hsplit]

/-- Witness of C6: `a=1 host=web1 q=`. -/
theorem C6_round_trip_witness :
    parseLogfmt (join (([⟨"a".toList, "1".toList⟩, ⟨"host".toList, "web1".toList⟩,
        ⟨"q".toList, []⟩] : List Pair).map (fun p => p.k ++ "=".toList ++ p.v)) " ".toList) =
      .ok [⟨"a".toList, "1".toList⟩, ⟨"host".toList, "web1".toList⟩, ⟨"q".toList, []⟩] :=
  C6_round_trip [⟨"a".toList, "1".toList⟩, ⟨"host".toList, "web1".toList⟩, ⟨"q".toList, []⟩]
    (by decide) (by decide) (by decide)

/-- One iteration on a remainder without `=`: the whole remainder is the key. -/
theorem parseLoop_bare (fuel : Nat) (r : Str) (acc : List Pair) (hr0 : r ≠ [])
    (hre : '=' ∉ r) : parseLoop (fuel + 1) r acc = .ok (acc ++ [⟨r, []⟩]) := by
  rw [parseLoop]
  simp only [hr0, if_false, indexByte_eq_none '=' r hre]

/-- When no `=` is left: for zero or more well-formed `key=value` tokens followed by
a text `r` without `=`, all joined by single spaces, `parseLogfmt` returns the pairs
of the tokens followed by the one pair `(r, "")`. -/
theorem parseLogfmt_bare_remainder (ps : List Pair) (r : Str)
    (hk : ∀ p ∈ ps, p.k ≠ [] ∧ (∀ c ∈ p.k, isSpace c = false) ∧ '=' ∉ p.k)
    (hv : ∀ p ∈ ps, (∀ c ∈ p.v, isSpace c = false) ∧ p.v.head? ≠ some '"')
    (hr0 : r ≠ []) (hrt : Trimmed r) (hre : '=' ∉ r) :
    parseLogfmt (join (ps.map (fun p => p.k ++ "=".toList ++ p.v) ++ [r]) " ".toList) =
      .ok (ps ++ [⟨r, []⟩]) := by
  have hmap : ps.map (fun p => p.k ++ "=".toList ++ p.v) = ps.map token := by
    apply List.map_congr_left
    intro p _
    simp [token]
  have hsp : " ".toList = [' '] := rfl
  have hps : ∀ p ∈ ps, goodKey p.k ∧ goodVal p.v := fun p hp => ⟨hk p hp, hv p hp⟩
  have key := parseLoop_tokens_then r ⟨r, []⟩ hr0 hrt
    (fun fuel acc => parseLoop_bare fuel r acc hr0 hre) ps hps
  unfold parseLogfmt
  simp only [hmap, hsp, trimSpace_of_trimmed _ (join_trimmed r hr0 hrt ps hps)]
  rw [key _ [] (Nat.le_refl _), List.nil_append]

/-- C7 fails on the code: the bare-word branch is reached only when no `=` is left
in `s`.  On `a=1 foo b=2` the bare word `foo` neither becomes the pair `(foo, "")`
nor ends the parsing: the text up to the next `=` is taken as one key, so the result
is `(a, 1)`, `(foo b, 2)`. -/
theorem C7_bare_word_glued :
    parseLogfmt "a=1 foo b=2".toList =
        .ok [⟨"a".toList, "1".toList⟩, ⟨"foo b".toList, "2".toList⟩] ∧
      parseLogfmt "a=1 foo b=2".toList ≠
        .ok [⟨"a".toList, "1".toList⟩, ⟨"foo".toList, []⟩] := by
  decide

/-! ## The severity filter -/

theorem jsonParts_congr (E : Env V) (m : GoMap V) (o1 o2 : Options)
    (hT : o1.TimeOnly = o2.TimeOnly) : jsonParts E m o1 = jsonParts E m o2 := by
  simp [jsonParts, hT]

theorem logfmtParts_congr (E : Env V) (f : Fields) (o1 o2 : Options)
    (hT : o1.TimeOnly = o2.TimeOnly) : logfmtParts E f o1 = logfmtParts E f o2 := by
  simp [logfmtParts, hT]

theorem formatJSON_mono (E : Env V) (raw : Str) (o1 o2 : Options)
    (hT : o1.TimeOnly = o2.TimeOnly)
    (hm : ∀ lvl, belowMin E o2 lvl = true → belowMin E o1 lvl = true)
    (hout : formatJSON E raw o1 ≠ []) : formatJSON E raw o2 = formatJSON E raw o1 := by
  unfold formatJSON at hout ⊢
  cases hu : E.unmarshal raw with
  | none => simp [formatPlain]
  | some m =>
    simp only [hu] at hout ⊢
    by_cases h1 : belowMin E o1 (jsonFind E m jsonLevelKeys).2 = true
    · simp [h1] at hout
    · have h2 : ¬ belowMin E o2 (jsonFind E m jsonLevelKeys).2 = true := fun h => h1 (hm _ h)
      simp only [h1, h2, if_false, jsonParts_congr E m o1 o2 hT]

theorem formatLogfmt_mono (E : Env V) (raw : Str) (o1 o2 : Options)
    (hT : o1.TimeOnly = o2.TimeOnly)
    (hm : ∀ lvl, belowMin E o2 lvl = true → belowMin E o1 lvl = true) (out : Str)
    (h : formatLogfmt E raw o1 = .ok out) (hout : out ≠ []) :
    formatLogfmt E raw o2 = .ok out := by
  unfold formatLogfmt at h ⊢
  cases hp : parseLogfmt raw with
  | error e => simp [hp] at h
  | ok pairs =>
    simp only [hp] at h ⊢
    by_cases h1 : belowMin E o1 (collect E pairs).level = true
    · simp only [h1, if_true] at h
      cases h
      exact absurd rfl hout
    · have h2 : ¬ belowMin E o2 (collect E pairs).level = true := fun h => h1 (hm _ h)
      simp only [h1, h2, if_false, logfmtParts_congr E _ o1 o2 hT, formatPlain] at h ⊢
      exact h

theorem FormatLine_mono (E : Env V) (raw : Str) (o1 o2 : Options)
    (hF : o1.Filter = o2.Filter) (hT : o1.TimeOnly = o2.TimeOnly)
    (hm : ∀ lvl, belowMin E o2 lvl = true → belowMin E o1 lvl = true) (out : Str)
    (h : FormatLine E raw o1 = .ok out) (hout : out ≠ []) :
    FormatLine E raw o2 = .ok out := by
  unfold FormatLine at h ⊢
  rw [hF] at h
  by_cases c1 : trimSpace raw = []
  · rw [if_pos c1] at h
    cases h
    exact absurd rfl hout
  rw [if_neg c1] at h ⊢
  by_cases c2 : o2.Filter ≠ [] ∧
      ¬ contains (toLower E (trimSpace raw)) (toLower E o2.Filter) = true
  · rw [if_pos c2] at h
    cases h
    exact absurd rfl hout
  rw [if_neg c2] at h ⊢
  by_cases c3 : hasPrefix (trimSpace raw) ['{'] = true
  · rw [if_pos c3] at h ⊢
    have hj : formatJSON E (trimSpace raw) o1 = out := by cases h; rfl
    rw [formatJSON_mono E _ o1 o2 hT hm (by rw [hj]; exact hout), hj]
  rw [if_neg c3] at h ⊢
  by_cases c4 : contains (trimSpace raw) ['='] = true
  · rw [if_pos c4] at h ⊢
    exact formatLogfmt_mono E _ o1 o2 hT hm out h hout
  rw [if_neg c4] at h ⊢
  cases hp : tryPrefixFormat E (trimSpace raw) with
  | error e => simp [hp] at h
  | ok r =>
    cases r with
    | none =>
      simp only [hp, formatPlain] at h ⊢
      exact h
    | some lm =>
      obtain ⟨level, msg⟩ := lm
      simp only [hp] at h ⊢
      by_cases h1 : belowMin E o1 level = true
      · rw [if_pos h1] at h
        cases h
        exact absurd rfl hout
      · have h2 : ¬ belowMin E o2 level = true := fun h => h1 (hm _ h)
        rw [if_neg h1] at h
        rw [if_neg h2]
        exact h

/-- C2 as stated fails when `a` is the empty token: `levelRank "" = 1`, yet an empty
`LevelMin` switches the filter off.  The line `level=debug` is shown with
`LevelMin = ""` and skipped with `LevelMin = "info"`, although
`levelRank "info" ≤ levelRank ""`. -/
theorem C2_counterexample :
    levelRank plainEnv "info".toList ≤ levelRank plainEnv [] ∧
      FormatLine plainEnv "level=debug".toList { noOpts with LevelMin := [] } =
        .ok "DEBUG".toList ∧
      FormatLine plainEnv "level=debug".toList { noOpts with LevelMin := "info".toList } =
        .ok [] := by
  decide

/-! ## Lines that the code drops or misreads -/

/-- C1 fails on the code: `formatJSON` has no fallback for an empty `parts`.  The JSON
object `\x7b\x7d`, and `\x7b"a":1\x7d` with `TimeOnly`, are decoded, yield no segment
and come back as the empty string, so the line is skipped although no filter is
set. -/
theorem C1_json_line_dropped :
    FormatLine plainEnv "\x7b\x7d".toList noOpts = .ok [] ∧
      FormatLine plainEnv "\x7b\"a\":1\x7d".toList { noOpts with TimeOnly := true } = .ok [] := by
  decide

/-- C9 fails on the code: `jsonFind` returns the key `""` when no alias is present,
and that `""` is entered in `skip`.  For the decoded object with the keys `""` and
`level` the only segment is the level: the attribute of the empty-string key is
left out. -/
theorem C9_empty_key_skipped :
    jsonParts plainEnv [([], "1".toList), ("level".toList, "info".toList)] noOpts =
        [Seg.level "info".toList] ∧
      FormatLine plainEnv "\x7b\"\":1,\"level\":\"info\"\x7d".toList noOpts =
        .ok "INFO ".toList := by
  decide

/-- C10 fails on the code: `tryPrefixFormat` tests `HasPrefix` only and never looks
for a separator.  `INFORMATION received` is read as level `INFO` with message
`RMATION received`, and `ERRORS found` as level `ERROR` with message `S found`. -/
theorem C10_prefix_without_separator :
    tryPrefixFormat plainEnv "INFORMATION received".toList =
        .ok (some ("INFO".toList, "RMATION received".toList)) ∧
      FormatLine plainEnv "INFORMATION received".toList noOpts =
        .ok "INFO  RMATION received".toList ∧
      FormatLine plainEnv "ERRORS found".toList noOpts = .ok "ERROR S found".toList := by
  decide

/-! ## Plain lines and the logfmt fallback -/

theorem contains_iff_sub (s sub : Str) : contains s sub = true ↔ sub <:+: s := by
  unfold contains
  induction s with
  | nil => by_cases h : sub = [] <;> simp [index, h]
  | cons c s ih =>
    rw [List.infix_cons_iff, ← ih]
    by_cases h : hasPrefix (c :: s) sub = true
    · have hp : sub <+: c :: s := by simpa [hasPrefix] using h
      simp [index, h, hp]
    · have hp : ¬ sub <+: c :: s := by simpa [hasPrefix] using h
      simp [index, h, hp]

theorem contains_eq_false (s : Str) (b : Char) (hb : b ∉ s) : contains s [b] = false := by
  simp [contains, index_singleton, indexByte_eq_none b s hb]

theorem contains_eq_mem (s : Str) (b : Char) : contains s [b] = true ↔ b ∈ s := by
  rw [contains_iff_sub]
  constructor
  · rintro ⟨a, c, h⟩
    rw [← h]
    simp
  · intro h
    obtain ⟨a, c, h⟩ := List.append_of_mem h
    exact ⟨a, c, by simp [h]⟩

theorem contains_toLower (E : Env V) (s sub : Str) (h : sub <:+: s) :
    contains (toLower E s) (toLower E sub) = true := by
  rw [contains_iff_sub]
  exact List.IsInfix.map _ h

theorem belowMin_of_nil (E : Env V) (opts : Options) (h : opts.LevelMin = []) (lvl : Str) :
    belowMin E opts lvl = false := by
  simp [belowMin, h]

/-- When no pair has a recognised key, `level`, `msg` and `ts` keep their values. -/
theorem foldl_assign_unrecognised (E : Env V) (pairs : List Pair)
    (hn : ∀ p ∈ pairs, recognised E p.k = false) (f : Fields) :
    (pairs.foldl (assign E) f).level = f.level ∧ (pairs.foldl (assign E) f).msg = f.msg ∧
      (pairs.foldl (assign E) f).ts = f.ts := by
  induction pairs generalizing f with
  | nil => simp
  | cons p pairs ih =>
    have hp := hn p (List.mem_cons_self _ _)
    simp only [recognised, Bool.or_eq_false_iff, decide_eq_false_iff_not] at hp
    have ha : (assign E f p).level = f.level ∧ (assign E f p).msg = f.msg ∧
        (assign E f p).ts = f.ts := by
      simp only [assign, hp.1.1, hp.1.2, hp.2, if_false]
      simp
    have := ih (fun q hq => hn q (List.mem_cons_of_mem _ hq)) (assign E f p)
    rw [List.foldl_cons]
    exact ⟨this.1.trans ha.1, this.2.1.trans ha.2.1, this.2.2.trans ha.2.2⟩

/-- C3, as the code has it: a line whose trimmed form is non-empty, does not start
with an opening brace, has no `=` and is not recognised by `tryPrefixFormat` is
returned as the Plain rendering (`styleUnknown.Render`) of the trimmed line, whatever
`LevelMin` and `TimeOnly` are, as soon as the filter is empty or contained in the
trimmed line (the filter is tested after the line is trimmed): the severity filter
never suppresses a Plain line. -/
theorem C3_plain_line (E : Env V) (raw : Str) (opts : Options)
    (h0 : trimSpace raw ≠ []) (hj : hasPrefix (trimSpace raw) ['{'] = false)
    (he : '=' ∉ trimSpace raw) (hp : tryPrefixFormat E (trimSpace raw) = .ok none)
    (hf : opts.Filter = [] ∨ opts.Filter <:+: trimSpace raw) :
    FormatLine E raw opts = .ok (E.render Style.unknown (trimSpace raw)) := by
  have c2 : ¬ (opts.Filter ≠ [] ∧
      ¬ contains (toLower E (trimSpace raw)) (toLower E opts.Filter) = true) := by
    rintro ⟨h1, h2⟩
    rcases hf with hf | hf
    · exact h1 hf
    · exact h2 (contains_toLower E _ _ hf)
  have c4 : ¬ contains (trimSpace raw) ['='] = true := by
    simp [contains_eq_false _ _ he]
  have c3 : ¬ hasPrefix (trimSpace raw) ['{'] = true := by simp [hj]
  unfold FormatLine
  rw [if_neg h0, if_neg c2, if_neg c3, if_neg c4]
  simp only [hp, formatPlain]

/-- Witness of C3: `random unparseable text` with minimum level `fatal`. -/
theorem C3_plain_line_witness :
    FormatLine plainEnv "  random unparseable text ".toList
        ⟨"unparseable".toList, "fatal".toList, false, true⟩ =
      .ok (plainEnv.render Style.unknown (trimSpace "  random unparseable text ".toList)) :=
  C3_plain_line plainEnv "  random unparseable text ".toList
    ⟨"unparseable".toList, "fatal".toList, false, true⟩ (by decide) (by decide) (by decide)
    (by decide) (Or.inr (by decide))

/-- C4, as the code has it: a logfmt line (trimmed form not starting with an opening
brace, containing `=`) whose parsed pairs carry no level, message or timestamp key is
returned, without filter and minimum level, as the Plain rendering of the trimmed
line when `TimeOnly` is set; when `TimeOnly` is not set and the attribute map is
visited, the line is returned as its `key=value` attribute segments joined by single
spaces. -/
theorem C4_no_recognised_key (E : Env V) (raw : Str) (opts : Options) (pairs : List Pair)
    (h0 : trimSpace raw ≠ []) (hj : hasPrefix (trimSpace raw) ['{'] = false)
    (he : '=' ∈ trimSpace raw) (hF : opts.Filter = []) (hL : opts.LevelMin = [])
    (hp : parseLogfmt (trimSpace raw) = .ok pairs)
    (hn : ∀ p ∈ pairs, recognised E p.k = false) :
    (opts.TimeOnly = true →
        FormatLine E raw opts = .ok (E.render Style.unknown (trimSpace raw))) ∧
      (opts.TimeOnly = false → E.rangeKV (collect E pairs).kvMap ≠ [] →
        FormatLine E raw opts =
          .ok (join ((E.rangeKV (collect E pairs).kvMap).map
            (fun kv => formatKV E kv.1 kv.2)) [' '])) := by
  have c2 : ¬ (opts.Filter ≠ [] ∧
      ¬ contains (toLower E (trimSpace raw)) (toLower E opts.Filter) = true) :=
    fun h => h.1 hF
  have c3 : ¬ hasPrefix (trimSpace raw) ['{'] = true := by simp [hj]
  have c4 : contains (trimSpace raw) ['='] = true := (contains_eq_mem _ _).mpr he
  have hfl := foldl_assign_unrecognised E pairs hn ⟨[], [], [], []⟩
  have hhead : headParts (collect E pairs).ts (collect E pairs).level (collect E pairs).msg
      = [] := by
    unfold collect
    rw [hfl.1, hfl.2.1, hfl.2.2]
    simp [headParts]
  have hfmt : FormatLine E raw opts = formatLogfmt E (trimSpace raw) opts := by
    unfold FormatLine
    rw [if_neg h0, if_neg c2, if_neg c3, if_pos c4]
  rw [hfmt]
  unfold formatLogfmt
  simp only [hp, belowMin_of_nil E opts hL, Bool.false_eq_true, if_false, logfmtParts, hhead,
    List.nil_append]
  constructor
  · intro hT
    simp [hT, formatPlain]
  · intro hT hne
    simp [hT, hne, Seg.render, Function.comp_def]

/-- Witness of C4: `host=web1 up=1`, with `TimeOnly` set and not set. -/
theorem C4_no_recognised_key_witness :
    FormatLine plainEnv "host=web1  up=1".toList { noOpts with TimeOnly := true } =
        .ok "host=web1  up=1".toList ∧
      FormatLine plainEnv "host=web1  up=1".toList noOpts = .ok "host=web1 up=1".toList :=
  ⟨(C4_no_recognised_key plainEnv "host=web1  up=1".toList { noOpts with TimeOnly := true }
      [⟨"host".toList, "web1".toList⟩, ⟨"up".toList, "1".toList⟩]
      (by decide) (by decide) (by decide) rfl rfl (by decide) (by decide)).1 rfl,
   (C4_no_recognised_key plainEnv "host=web1  up=1".toList noOpts
      [⟨"host".toList, "web1".toList⟩, ⟨"up".toList, "1".toList⟩]
      (by decide) (by decide) (by decide) rfl rfl (by decide) (by decide)).2 rfl
      (by decide)⟩

/-- C4 as stated fails: `host=web1` has no level, message or timestamp key, yet with
`TimeOnly` not set it is returned as the attribute segment of `formatKV` (key,
separator and value each in its style), not as the Plain rendering of the line. -/
theorem C4_counterexample :
    parseLogfmt "host=web1".toList = .ok [⟨"host".toList, "web1".toList⟩] ∧
      recognised colourEnv "host".toList = false ∧
      FormatLine colourEnv "host=web1".toList noOpts =
        .ok (formatKV colourEnv "host".toList "web1".toList) ∧
      FormatLine colourEnv "host=web1".toList noOpts ≠
        .ok (colourEnv.render Style.unknown "host=web1".toList) := by
  decide

/-! ## Attributes of a logfmt line -/

theorem lookup_cons_eq {α : Type} (k2 k1 : Str) (v1 : α) (m : GoMap α) :
    List.lookup k2 ((k1, v1) :: m) = if k2 = k1 then some v1 else List.lookup k2 m := by
  by_cases h : k2 = k1
  · subst h
    simp [List.lookup]
  · have hb : (k2 == k1) = false := by simpa using h
    simp [List.lookup, hb, h]

theorem mapGet_mapSet {α : Type} (m : GoMap α) (k k2 : Str) (v : α) :
    mapGet (mapSet m k v) k2 = if k2 = k then some v else mapGet m k2 := by
  unfold mapGet
  induction m with
  | nil => simp [mapSet, lookup_cons_eq]
  | cons e m ih =>
    obtain ⟨k1, v1⟩ := e
    by_cases h1 : k1 = k
    · subst h1
      by_cases h : k2 = k1 <;> simp [mapSet, lookup_cons_eq, h]
    · by_cases h : k2 = k1
      · have h3 : ¬ k2 = k := by rw [h]; exact h1
        simp [mapSet, lookup_cons_eq, h1, h, h3]
      · simp [mapSet, lookup_cons_eq, h1, h, ih]

theorem keys_mapSet {α : Type} (m : GoMap α) (k : Str) (v : α) :
    (mapSet m k v).map Prod.fst =
      if k ∈ m.map Prod.fst then m.map Prod.fst else m.map Prod.fst ++ [k] := by
  induction m with
  | nil =>
    simp only [mapSet, List.map_nil, List.not_mem_nil, if_false, List.nil_append,
      List.map_cons]
  | cons e m ih =>
    obtain ⟨k1, v1⟩ := e
    by_cases h1 : k1 = k
    · subst h1
      simp only [mapSet, if_true, List.map_cons, List.mem_cons, true_or]
    · have h2 : ¬ k = k1 := fun h => h1 h.symm
      by_cases h3 : k ∈ m.map Prod.fst
      · rw [if_pos h3] at ih
        simp only [mapSet, h1, if_false, List.map_cons, ih, List.mem_cons, h2, false_or, h3,
          if_true]
      · rw [if_neg h3] at ih
        simp only [mapSet, h1, if_false, List.map_cons, ih, List.mem_cons, h2, false_or, h3,
          List.cons_append]

theorem nodup_mapSet {α : Type} (m : GoMap α) (k : Str) (v : α)
    (h : (m.map Prod.fst).Nodup) : ((mapSet m k v).map Prod.fst).Nodup := by
  rw [keys_mapSet]
  by_cases hk : k ∈ m.map Prod.fst
  · rw [if_pos hk]; exact h
  · rw [if_neg hk]
    exact List.Nodup.append h (List.nodup_singleton k) (by
      intro x hx hx2
      rw [List.mem_singleton] at hx2
      exact hk (hx2 ▸ hx))

theorem filter_key_of_mapGet {α : Type} (m : GoMap α) (k : Str) (v : α)
    (hnd : (m.map Prod.fst).Nodup) (hg : mapGet m k = some v) :
    m.filter (fun kv => decide (kv.1 = k)) = [(k, v)] := by
  induction m with
  | nil => simp [mapGet] at hg
  | cons e m ih =>
    obtain ⟨k1, v1⟩ := e
    rw [List.map_cons, List.nodup_cons] at hnd
    unfold mapGet at hg ih
    by_cases h1 : k = k1
    · subst h1
      rw [lookup_cons_eq, if_pos rfl] at hg
      have hv : v1 = v := Option.some.inj hg
      have hrest : m.filter (fun kv => decide (kv.1 = k)) = [] := by
        rw [List.filter_eq_nil_iff]
        intro kv hkv hd
        have hd2 : kv.1 = k := of_decide_eq_true hd
        exact hnd.1 (List.mem_map.mpr ⟨kv, hkv, hd2⟩)
      simp [List.filter, hrest, hv]
    · have h2 : ¬ k1 = k := fun h => h1 h.symm
      rw [lookup_cons_eq, if_neg h1] at hg
      simp [List.filter, h2, ih hnd.2 hg]

theorem mapGet_assign (E : Env V) (f : Fields) (q : Pair) (k : Str)
    (hk : recognised E k = false) :
    mapGet (assign E f q).kvMap k = if q.k = k then some q.v else mapGet f.kvMap k := by
  simp only [recognised, Bool.or_eq_false_iff, decide_eq_false_iff_not] at hk
  by_cases hq : q.k = k
  · rw [if_pos hq]
    simp only [assign, hq, hk.1.1, hk.1.2, hk.2, if_false, mapGet_mapSet, if_true]
  · rw [if_neg hq]
    have hq2 : ¬ k = q.k := fun h => hq h.symm
    unfold assign
    simp only []
    split
    · rfl
    · split
      · rfl
      · split
        · rfl
        · simp only [mapGet_mapSet, hq2, if_false]

theorem nodup_assign (E : Env V) (f : Fields) (q : Pair)
    (h : (f.kvMap.map Prod.fst).Nodup) : ((assign E f q).kvMap.map Prod.fst).Nodup := by
  unfold assign
  simp only []
  split
  · exact h
  · split
    · exact h
    · split
      · exact h
      · exact nodup_mapSet _ _ _ h

theorem nodup_foldl_assign (E : Env V) (pairs : List Pair) (f : Fields)
    (h : (f.kvMap.map Prod.fst).Nodup) :
    ((pairs.foldl (assign E) f).kvMap.map Prod.fst).Nodup := by
  induction pairs generalizing f with
  | nil => exact h
  | cons q pairs ih => exact ih _ (nodup_assign E f q h)

theorem lastValue_cons (q : Pair) (pairs : List Pair) (k : Str) :
    lastValue (q :: pairs) k =
      match lastValue pairs k with
      | some v => some v
      | none => if q.k = k then some q.v else none := by
  unfold lastValue
  by_cases hq : q.k = k
  · simp only [List.filter, hq, decide_True, List.getLast?_cons, if_true]
    cases (List.filter (fun p => decide (p.k = k)) pairs).getLast? <;> simp
  · simp only [List.filter, hq, decide_False, if_false]
    cases (List.filter (fun p => decide (p.k = k)) pairs).getLast? <;> simp

theorem mapGet_foldl_assign (E : Env V) (pairs : List Pair) (f : Fields) (k : Str)
    (hk : recognised E k = false) :
    mapGet (pairs.foldl (assign E) f).kvMap k =
      match lastValue pairs k with
      | some v => some v
      | none => mapGet f.kvMap k := by
  induction pairs generalizing f with
  | nil => simp [lastValue]
  | cons q pairs ih =>
    rw [List.foldl_cons, ih, lastValue_cons, mapGet_assign E f q k hk]
    cases lastValue pairs k with
    | some v => rfl
    | none =>
      by_cases hq : q.k = k <;> simp [hq]

theorem lastValue_of_mem (pairs : List Pair) (p : Pair) (hp : p ∈ pairs) :
    ∃ v, lastValue pairs p.k = some v := by
  unfold lastValue
  have hmem : p ∈ pairs.filter (fun q => decide (q.k = p.k)) := by
    simp [List.mem_filter, hp]
  have hne : pairs.filter (fun q => decide (q.k = p.k)) ≠ [] :=
    List.ne_nil_of_mem hmem
  rw [List.getLast?_eq_getLast _ hne]
  exact ⟨_, rfl⟩

theorem headParts_filter_key (ts level msg k : Str) :
    (headParts ts level msg).filter (fun s => decide (s.key? = some k)) = [] := by
  unfold headParts
  by_cases h1 : ts = [] <;> by_cases h2 : level = [] <;> by_cases h3 : msg = [] <;>
    simp [h1, h2, h3, Seg.key?, List.filter]

/-- Among the segments of a logfmt line there is exactly one `key=value` segment for
the key of an attribute pair, with the value of the last pair of that key, and the
output is the join of the rendered segments. -/
theorem attribute_segment_unique (E : Env V) (raw : Str) (opts : Options) (pairs : List Pair)
    (hparse : parseLogfmt raw = .ok pairs) (hT : opts.TimeOnly = false)
    (hmin : belowMin E opts (collect E pairs).level = false)
    (hperm : (E.rangeKV (collect E pairs).kvMap).Perm (collect E pairs).kvMap)
    (p : Pair) (hp : p ∈ pairs) (hk : recognised E p.k = false) :
    ∃ v, lastValue pairs p.k = some v ∧
      (logfmtParts E (collect E pairs) opts).filter (fun s => decide (s.key? = some p.k)) =
        [Seg.kv p.k v] ∧
      formatLogfmt E raw opts =
        .ok (join ((logfmtParts E (collect E pairs) opts).map (Seg.render E)) [' ']) := by
  obtain ⟨v, hv⟩ := lastValue_of_mem pairs p hp
  have hget : mapGet (collect E pairs).kvMap p.k = some v := by
    unfold collect
    rw [mapGet_foldl_assign E pairs _ p.k hk, hv]
  have hnd : ((collect E pairs).kvMap.map Prod.fst).Nodup :=
    nodup_foldl_assign E pairs _ (by simp)
  have hfil := filter_key_of_mapGet _ p.k v hnd hget
  have hrange : (E.rangeKV (collect E pairs).kvMap).filter (fun kv => decide (kv.1 = p.k)) =
      [(p.k, v)] := by
    have := List.Perm.filter (fun kv : Str × Str => decide (kv.1 = p.k)) hperm
    rw [hfil] at this
    exact List.perm_singleton.mp this
  have hparts : (logfmtParts E (collect E pairs) opts).filter
      (fun s => decide (s.key? = some p.k)) = [Seg.kv p.k v] := by
    unfold logfmtParts
    rw [List.filter_append, headParts_filter_key]
    simp only [hT, Bool.false_eq_true, not_false_eq_true, if_true, List.nil_append,
      List.filter_map]
    have hfun : ((fun s : Seg => decide (s.key? = some p.k)) ∘
        fun kv : Str × Str => Seg.kv kv.1 kv.2) = fun kv => decide (kv.1 = p.k) := by
      funext kv
      simp [Seg.key?]
    rw [hfun, hrange]
    rfl
  refine ⟨v, hv, hparts, ?_⟩
  have hlen : (logfmtParts E (collect E pairs) opts).length ≠ 0 := by
    intro h0
    rw [List.length_eq_zero] at h0
    rw [h0] at hparts
    simp at hparts
  unfold formatLogfmt
  simp only [hparse, hmin, Bool.false_eq_true, if_false, hlen]

/-! ## The parser returns a list of pairs on every line -/

theorem indexByte_some (b : Char) (s : Str) (i : Nat) (h : indexByte b s = some i) :
    ∃ p q, s = p ++ b :: q ∧ b ∉ p ∧ i = byteLen p := by
  induction s generalizing i with
  | nil => simp [indexByte] at h
  | cons c s ih =>
    by_cases hc : c = b
    · subst hc
      simp only [indexByte, if_true, Option.some.injEq] at h
      exact ⟨[], s, rfl, by simp, by simp [byteLen, ← h]⟩
    · simp only [indexByte, hc, if_false, Option.map_eq_some'] at h
      obtain ⟨j, hj, hij⟩ := h
      obtain ⟨p, q, hs, hp, hjp⟩ := ih j hj
      refine ⟨c :: p, q, by simp [hs], ?_, ?_⟩
      · simp only [List.mem_cons, not_or]
        exact ⟨fun e => hc e.symm, hp⟩
      · simp [byteLen, ← hij, hjp, Nat.add_comm]

theorem trimSpace_length_le (s : Str) : (trimSpace s).length ≤ s.length := by
  unfold trimSpace
  exact Nat.le_trans (List.rdropWhile_prefix isSpace _).length_le
    (List.dropWhile_sublist isSpace).length_le

theorem parseLoop_ok (fuel : Nat) : ∀ (s : Str) (acc : List Pair), s.length ≤ fuel →
    ∃ ps, parseLoop fuel s acc = .ok ps := by
  induction fuel with
  | zero =>
    intro s acc hs
    have : s = [] := List.length_eq_zero.mp (Nat.le_zero.mp hs)
    exact ⟨acc, by simp [parseLoop, this]⟩
  | succ n ih =>
    intro s acc hs
    rw [parseLoop]
    by_cases h0 : s = []
    · exact ⟨acc, by simp [h0]⟩
    rw [if_neg h0]
    cases hi : indexByte '=' s with
    | none => exact ⟨_, rfl⟩
    | some eqIdx =>
      obtain ⟨p, q, hpq, -, hidx⟩ := indexByte_some '=' s eqIdx hi
      have hq : q.length ≤ n := by
        rw [hpq] at hs
        simp only [List.length_append, List.length_cons] at hs
        omega
      simp only [hidx, hpq, sliceTo_append, sliceFrom_append_succ p q '=' rfl]
      by_cases hquote : hasPrefix q ['"'] = true
      · rw [if_pos hquote]
        obtain ⟨q1, hq1⟩ : ∃ q1, q = '"' :: q1 := by
          cases q with
          | nil => simp [hasPrefix] at hquote
          | cons c q1 =>
            have : c = '"' := by
              simp only [hasPrefix, List.isPrefixOf, Bool.and_true, beq_iff_eq] at hquote
              exact hquote.symm
            exact ⟨q1, by rw [this]⟩
        have hs1 : sliceFrom 1 ('"' :: q1) = .ok q1 := by simp [sliceFrom, quote_size]
        simp only [hq1, hs1, index_singleton]
        cases he : indexByte '"' q1 with
        | none => exact ⟨_, parseLoop_nil _ _⟩
        | some e =>
          obtain ⟨v, r, hvr, -, hev⟩ := indexByte_some '"' q1 e he
          have h2 : slice 1 (byteLen v + 1) ('"' :: (v ++ '"' :: r)) = .ok v := by
            have hto : sliceTo (byteLen v + 1) ('"' :: (v ++ '"' :: r)) = .ok ('"' :: v) := by
              have := sliceTo_append ('"' :: v) ('"' :: r)
              simpa [byteLen, Nat.add_comm, quote_size] using this
            simp [slice, hto, sliceFrom, quote_size]
          have h3 : sliceFrom (byteLen v + 2) ('"' :: (v ++ '"' :: r)) = .ok r := by
            have := sliceFrom_append ('"' :: (v ++ ['"'])) r
            simpa [byteLen, byteLen_append, quote_size, Nat.add_comm, Nat.add_left_comm]
              using this
          simp only [hev, hvr, h2, h3]
          apply ih
          have := trimSpace_length_le r
          rw [hq1, hvr] at hq
          simp only [List.length_append, List.length_cons] at hq
          omega
      · rw [if_neg hquote]
        cases hsp : indexByte ' ' q with
        | none => exact ⟨_, parseLoop_nil _ _⟩
        | some spIdx =>
          obtain ⟨v, r, hvr, -, hsv⟩ := indexByte_some ' ' q spIdx hsp
          simp only [hsv, hvr, sliceTo_append, sliceFrom_append_succ v r ' ' rfl]
          apply ih
          have := trimSpace_length_le r
          rw [hvr] at hq
          simp only [List.length_append, List.length_cons] at hq
          omega

theorem parseLogfmt_ok (s : Str) : ∃ ps, parseLogfmt s = .ok ps :=
  parseLoop_ok _ _ [] (Nat.le_refl _)

/-! ## Prefix lines, blank lines and the substring filter -/

/-- C11 fails on the code: in `knownLevelPrefixes` the token `WARN` stands before
`WARNING` and `CRIT` before `CRITICAL`, so the longer token is never the one matched.
`WARNING: disk low` is read as level `WARN` with message `ING: disk low`, and
`CRITICAL: db down` as level `CRIT` with message `ICAL: db down`; `INFO: server
started` is read as the claim says. -/
theorem C11_longer_token_shadowed :
    tryPrefixFormat plainEnv "WARNING: disk low".toList =
        .ok (some ("WARN".toList, "ING: disk low".toList)) ∧
      FormatLine plainEnv "WARNING: disk low".toList noOpts =
        .ok "WARN  ING: disk low".toList ∧
      tryPrefixFormat plainEnv "CRITICAL: db down".toList =
        .ok (some ("CRIT".toList, "ICAL: db down".toList)) ∧
      FormatLine plainEnv "CRITICAL: db down".toList noOpts =
        .ok "FATAL ICAL: db down".toList ∧
      FormatLine plainEnv "INFO: server started".toList noOpts =
        .ok "INFO  server started".toList := by
  decide

/-- C18 fails on the code: `tryPrefixFormat` tests the tokens against the start of the
upper-cased line, which for a bracketed level is `[`.  The line `[ERROR] message` of
the doc comment is not detected (`ok = false`) and `FormatLine` returns it as a Plain
line. -/
theorem C18_bracketed_level_missed :
    tryPrefixFormat plainEnv "[ERROR] message".toList = .ok none ∧
      FormatLine plainEnv "[ERROR] message".toList noOpts =
        .ok (formatPlain plainEnv "[ERROR] message".toList noOpts) := by
  decide

theorem trimSpace_of_blank (raw : Str) (h : ∀ c ∈ raw, isSpace c = true) :
    trimSpace raw = [] := by
  have hd : raw.dropWhile isSpace = [] := by
    rw [List.dropWhile_eq_nil_iff]
    exact h
  simp [trimSpace, hd]

/-- C19: a raw line that is empty or has white space only makes `FormatLine` return
the empty string, whatever the options are. -/
theorem C19_blank_line (E : Env V) (raw : Str) (opts : Options)
    (h : ∀ c ∈ raw, isSpace c = true) : FormatLine E raw opts = .ok [] := by
  unfold FormatLine
  simp [trimSpace_of_blank raw h]

/-- Witness of C19: a line of a space, a tab and a no-break space, with a filter. -/
theorem C19_blank_line_witness :
    FormatLine plainEnv [' ', '\t', Char.ofNat 0xA0] ⟨"x".toList, "debug".toList, true, true⟩ =
      .ok [] :=
  C19_blank_line plainEnv [' ', '\t', Char.ofNat 0xA0] ⟨"x".toList, "debug".toList, true, true⟩
    (by decide)

theorem trimSpace_sub (s : Str) : trimSpace s <:+: s := by
  unfold trimSpace
  exact List.IsInfix.trans (List.rdropWhile_prefix isSpace _).isInfix
    (List.dropWhile_suffix isSpace).isInfix

/-- C15: with a non-empty `Filter`, a raw line whose lower-cased form does not contain
the lower-cased filter makes `FormatLine` return the empty string, whatever the
format of the line, its severity and the other options are. -/
theorem C15_filter_suppresses (E : Env V) (raw : Str) (opts : Options)
    (hF : opts.Filter ≠ [])
    (hc : contains (toLower E raw) (toLower E opts.Filter) = false) :
    FormatLine E raw opts = .ok [] := by
  have hn : ¬ contains (toLower E (trimSpace raw)) (toLower E opts.Filter) = true := by
    intro h
    rw [contains_iff_sub] at h
    have h2 : toLower E opts.Filter <:+: toLower E raw :=
      List.IsInfix.trans h (List.IsInfix.map _ (trimSpace_sub raw))
    rw [← contains_iff_sub, hc] at h2
    cases h2
  unfold FormatLine
  by_cases h0 : trimSpace raw = []
  · rw [if_pos h0]
  · rw [if_neg h0, if_pos ⟨hF, hn⟩]

/-- Witness of C15: an error line without `timeout`, filter `TimeOut`. -/
theorem C15_filter_suppresses_witness :
    FormatLine plainEnv "level=error msg=\"db down\"".toList
      ⟨"TimeOut".toList, [], false, false⟩ = .ok [] :=
  C15_filter_suppresses plainEnv "level=error msg=\"db down\"".toList
    ⟨"TimeOut".toList, [], false, false⟩ (by decide) (by decide)

/-! ## The level normaliser -/

theorem levelRank_eq_specRank (E : Env V) (l : Str) :
    levelRank E l = specRank (toUpper E (trimSpace l)) := by
  unfold levelRank
  simp only []
  generalize toUpper E (trimSpace l) = u
  by_cases h1 : u = "DEBUG".toList
  · subst h1; decide
  by_cases h2 : u = "DBG".toList
  · subst h2; decide
  by_cases h3 : u = "TRACE".toList
  · subst h3; decide
  by_cases h4 : u = "INFO".toList
  · subst h4; decide
  by_cases h5 : u = "INF".toList
  · subst h5; decide
  by_cases h6 : u = "WARN".toList
  · subst h6; decide
  by_cases h7 : u = "WRN".toList
  · subst h7; decide
  by_cases h8 : u = "WARNING".toList
  · subst h8; decide
  by_cases h9 : u = "ERROR".toList
  · subst h9; decide
  by_cases h10 : u = "ERR".toList
  · subst h10; decide
  by_cases h11 : u = "FATAL".toList
  · subst h11; decide
  by_cases h12 : u = "CRIT".toList
  · subst h12; decide
  by_cases h13 : u = "CRITICAL".toList
  · subst h13; decide
  simp only [String.toList] at h1 h2 h3 h4 h5 h6 h7 h8 h9 h10 h11 h12 h13
  simp [specRank, rankTable, lookup_cons_eq, h1, h2, h3, h4, h5, h6, h7, h8, h9, h10, h11,
    h12, h13]

theorem lookup_getD_le (t : List (Str × Nat)) (u : Str) (h : ∀ kv ∈ t, kv.2 ≤ 4) :
    (t.lookup u).getD 1 ≤ 4 := by
  induction t with
  | nil => simp
  | cons kv t ih =>
    obtain ⟨k, v⟩ := kv
    rw [lookup_cons_eq]
    by_cases hk : u = k
    · rw [if_pos hk]
      exact h (k, v) (List.mem_cons_self _ _)
    · rw [if_neg hk]
      exact ih (fun kv hkv => h kv (List.mem_cons_of_mem _ hkv))

theorem specRank_le (u : Str) : specRank u ≤ 4 :=
  lookup_getD_le rankTable u (by decide)

/-- C12: `levelRank` is the reference table read on the trimmed, upper-cased token
(DEBUG, DBG, TRACE 0; INFO, INF 1; WARN, WRN, WARNING 2; ERROR, ERR 3; FATAL, CRIT,
CRITICAL 4); a token that is not one of the thirteen, the empty one included, has
rank 1; the rank is at most 4. -/
theorem C12_levelRank_table (E : Env V) (l : Str) :
    levelRank E l = specRank (toUpper E (trimSpace l)) ∧
      (toUpper E (trimSpace l) ∉ knownLevelPrefixes → levelRank E l = 1) ∧
      levelRank E [] = 1 ∧ levelRank E l ≤ 4 := by
  refine ⟨levelRank_eq_specRank E l, ?_, ?_, ?_⟩
  · intro h
    unfold levelRank
    simp only [knownLevelPrefixes, List.mem_cons, List.mem_singleton, List.not_mem_nil,
      not_or, or_false] at h
    simp only [List.mem_cons, List.mem_singleton, List.not_mem_nil, h, or_self, if_false]
  · rfl
  · rw [levelRank_eq_specRank]
    exact specRank_le _

/-- Witness of C12: the unknown token `notice` has rank 1. -/
theorem C12_levelRank_table_witness : levelRank plainEnv "notice".toList = 1 :=
  (C12_levelRank_table plainEnv "notice".toList).2.1 (by decide)

/-! ## The label of a level -/

theorem formatLevel_eq_render (E : Env V) (l : Str) :
    formatLevel E l = E.render (levelStyle E l) (levelLabel E l) := by
  unfold formatLevel levelStyle levelLabel
  simp only []
  split
  · rfl
  · split
    · rfl
    · split
      · rfl
      · split
        · rfl
        · split <;> rfl

theorem levelLabel_eq_pad (E : Env V) (l : Str) :
    levelLabel E l = padRight5 (canonText (toUpper E (trimSpace l))) := by
  unfold levelLabel canonText
  simp only []
  generalize toUpper E (trimSpace l) = u
  by_cases h1 : u ∈ ["DEBUG".toList, "DBG".toList, "TRACE".toList]
  · rw [if_pos h1]
    have h2 : u ∉ ["WARN".toList, "WRN".toList, "WARNING".toList] := by
      intro h; revert h1; simp only [List.mem_cons, List.mem_singleton, List.not_mem_nil, or_false] at h ⊢
      rcases h with h | h | h <;> subst h <;> decide
    have h3 : u ∉ ["ERROR".toList, "ERR".toList] := by
      intro h; revert h1; simp only [List.mem_cons, List.mem_singleton, List.not_mem_nil, or_false] at h ⊢
      rcases h with h | h <;> subst h <;> decide
    have h4 : u ∉ ["FATAL".toList, "CRIT".toList, "CRITICAL".toList] := by
      intro h; revert h1; simp only [List.mem_cons, List.mem_singleton, List.not_mem_nil, or_false] at h ⊢
      rcases h with h | h | h <;> subst h <;> decide
    rw [if_neg h2, if_neg h3, if_neg h4]
  rw [if_neg h1]
  by_cases h2 : u ∈ ["INFO".toList, "INF".toList]
  · rw [if_pos h2]
    have h3 : u ∉ ["WARN".toList, "WRN".toList, "WARNING".toList] := by
      intro h; revert h2; simp only [List.mem_cons, List.mem_singleton, List.not_mem_nil, or_false] at h ⊢
      rcases h with h | h | h <;> subst h <;> decide
    have h4 : u ∉ ["ERROR".toList, "ERR".toList] := by
      intro h; revert h2; simp only [List.mem_cons, List.mem_singleton, List.not_mem_nil, or_false] at h ⊢
      rcases h with h | h <;> subst h <;> decide
    have h5 : u ∉ ["FATAL".toList, "CRIT".toList, "CRITICAL".toList] := by
      intro h; revert h2; simp only [List.mem_cons, List.mem_singleton, List.not_mem_nil, or_false] at h ⊢
      rcases h with h | h | h <;> subst h <;> decide
    rw [if_neg h3, if_neg h4, if_neg h5]
  rw [if_neg h2]
  by_cases h3 : u ∈ ["WARN".toList, "WRN".toList, "WARNING".toList]
  · rw [if_pos h3, if_pos h3]
  rw [if_neg h3, if_neg h3]
  by_cases h4 : u ∈ ["ERROR".toList, "ERR".toList]
  · rw [if_pos h4, if_pos h4]
  rw [if_neg h4, if_neg h4]
  by_cases h5 : u ∈ ["FATAL".toList, "CRIT".toList, "CRITICAL".toList]
  · rw [if_pos h5, if_pos h5]
  rw [if_neg h5, if_neg h5]

theorem padRight5_length (s : Str) : 5 ≤ (padRight5 s).length ∧
    (s.length ≤ 5 → (padRight5 s).length = 5) := by
  unfold padRight5
  simp only [List.length_append, List.length_replicate]
  omega

theorem canonText_length (u : Str) (h : u ∈ knownLevelPrefixes ∨ u.length ≤ 5) :
    (canonText u).length ≤ 5 := by
  unfold canonText
  split
  · decide
  · split
    · decide
    · split
      · decide
      · rename_i h1 h2 h3
        rcases h with h | h
        · simp only [knownLevelPrefixes, List.mem_cons, List.mem_singleton,
            List.not_mem_nil, or_false] at h h1 h2 h3
          rcases h with h | h | h | h | h | h | h | h | h | h | h | h | h <;>
            first
              | (subst h; decide)
              | (exfalso; simp [h] at h1 h2 h3)
        · exact h

/-- C13, as the code has it: for every level token `formatLevel` renders the label
`levelLabel`, which is left-justified, namely the canonical text (the upper-cased
token, or `WARN`, `ERROR`, `FATAL` for their synonyms) padded on the right with
spaces to five characters, and so has at least five characters; it has exactly five
when the trimmed, upper-cased token is one of the thirteen known tokens or has at
most five characters. -/
theorem C13_label_width (E : Env V) (l : Str) :
    formatLevel E l = E.render (levelStyle E l) (levelLabel E l) ∧
      levelLabel E l = canonText (toUpper E (trimSpace l)) ++
        List.replicate (5 - (canonText (toUpper E (trimSpace l))).length) ' ' ∧
      5 ≤ (levelLabel E l).length ∧
      (toUpper E (trimSpace l) ∈ knownLevelPrefixes ∨ (toUpper E (trimSpace l)).length ≤ 5 →
        (levelLabel E l).length = 5) := by
  refine ⟨formatLevel_eq_render E l, ?_, ?_, ?_⟩
  · rw [levelLabel_eq_pad]; rfl
  · rw [levelLabel_eq_pad]; exact (padRight5_length _).1
  · intro h
    rw [levelLabel_eq_pad]
    exact (padRight5_length _).2 (canonText_length _ h)

/-- Witness of C13: the token ` warning` has the label `WARN `. -/
theorem C13_label_width_witness :
    (levelLabel plainEnv " warning".toList).length = 5 :=
  (C13_label_width plainEnv " warning".toList).2.2.2 (Or.inl (by decide))

/-- C13 as stated fails for an unknown token of more than five characters: `%-5s`
pads and never cuts, so the label of `verbose` is `VERBOSE`, seven characters. -/
theorem C13_counterexample :
    formatLevel plainEnv "verbose".toList = "VERBOSE".toList ∧
      levelLabel plainEnv "verbose".toList = "VERBOSE".toList ∧
      (levelLabel plainEnv "verbose".toList).length = 7 := by
  decide

/-! ## Case and idempotence of the level normaliser -/

set_option maxRecDepth 100000 in
theorem ascii_case_facts : ∀ n, n < 128 →
    (Char.ofNat n).toUpper.toNat < 128 ∧ (Char.ofNat n).toLower.toNat < 128 ∧
    (Char.ofNat n).toUpper.toUpper = (Char.ofNat n).toUpper ∧
    (Char.ofNat n).toLower.toUpper = (Char.ofNat n).toUpper ∧
    isSpace (Char.ofNat n).toUpper = isSpace (Char.ofNat n) ∧
    isSpace (Char.ofNat n).toLower = isSpace (Char.ofNat n) := by
  decide

theorem ascii_case (c : Char) (h : c.toNat < 128) :
    c.toUpper.toNat < 128 ∧ c.toLower.toNat < 128 ∧ c.toUpper.toUpper = c.toUpper ∧
    c.toLower.toUpper = c.toUpper ∧ isSpace c.toUpper = isSpace c ∧
    isSpace c.toLower = isSpace c := by
  have := ascii_case_facts c.toNat h
  rwa [Char.ofNat_toNat] at this

theorem toUpperRune_ascii (E : Env V) (c : Char) (h : c.toNat < 128) :
    toUpperRune E c = c.toUpper := by
  simp [toUpperRune, h]

theorem toLowerRune_ascii (E : Env V) (c : Char) (h : c.toNat < 128) :
    toLowerRune E c = c.toLower := by
  simp [toLowerRune, h]

theorem dropWhile_map_of (f : Char → Char) (p : Char → Bool) (x : Str)
    (h : ∀ c ∈ x, p (f c) = p c) : (x.map f).dropWhile p = (x.dropWhile p).map f := by
  induction x with
  | nil => rfl
  | cons c x ih =>
    have hc := h c (List.mem_cons_self _ _)
    by_cases hp : p c = true
    · simp only [List.map_cons, List.dropWhile_cons, hc, hp, if_true]
      exact ih (fun d hd => h d (List.mem_cons_of_mem _ hd))
    · simp only [List.map_cons, List.dropWhile_cons, hc, hp, if_false]
      rfl

theorem trimSpace_map (f : Char → Char) (x : Str)
    (h : ∀ c ∈ x, isSpace (f c) = isSpace c) :
    trimSpace (x.map f) = (trimSpace x).map f := by
  unfold trimSpace
  rw [dropWhile_map_of f isSpace x h]
  unfold List.rdropWhile
  have hsub : ∀ c ∈ (x.dropWhile isSpace).reverse, isSpace (f c) = isSpace c := by
    intro c hc
    exact h c ((List.dropWhile_sublist isSpace).subset (List.mem_reverse.mp hc))
  rw [← List.map_reverse, dropWhile_map_of f isSpace _ hsub, List.map_reverse]

theorem isAscii_trimSpace (x : Str) (h : IsAscii x) : IsAscii (trimSpace x) := by
  intro c hc
  exact h c ((trimSpace_sub x).subset hc)

theorem toUpper_trim_toUpper (E : Env V) (x : Str) (h : IsAscii x) :
    toUpper E (trimSpace (toUpper E x)) = toUpper E (trimSpace x) := by
  unfold toUpper
  rw [trimSpace_map _ x (fun c hc => by
    rw [toUpperRune_ascii E c (h c hc)]; exact (ascii_case c (h c hc)).2.2.2.2.1), List.map_map]
  apply List.map_congr_left
  intro c hc
  have hca := isAscii_trimSpace x h c hc
  simp only [Function.comp]
  rw [toUpperRune_ascii E c hca, toUpperRune_ascii E _ (ascii_case c hca).1]
  exact (ascii_case c hca).2.2.1

theorem toUpper_trim_toLower (E : Env V) (x : Str) (h : IsAscii x) :
    toUpper E (trimSpace (toLower E x)) = toUpper E (trimSpace x) := by
  unfold toUpper toLower
  rw [trimSpace_map _ x (fun c hc => by
    rw [toLowerRune_ascii E c (h c hc)]; exact (ascii_case c (h c hc)).2.2.2.2.2), List.map_map]
  apply List.map_congr_left
  intro c hc
  have hca := isAscii_trimSpace x h c hc
  simp only [Function.comp]
  rw [toLowerRune_ascii E c hca, toUpperRune_ascii E _ (ascii_case c hca).2.1,
    toUpperRune_ascii E c hca]
  exact (ascii_case c hca).2.2.2.1

theorem rdropWhile_append_spaces (s : Str) (k : Nat) :
    (s ++ List.replicate k ' ').rdropWhile isSpace = s.rdropWhile isSpace := by
  induction k with
  | zero => simp
  | succ k ih =>
    rw [List.replicate_succ', ← List.append_assoc, List.rdropWhile_concat_pos _ _ _ space_isSpace,
      ih]

theorem trimSpace_append_spaces (t : Str) (k : Nat) (ht : Trimmed t) :
    trimSpace (t ++ List.replicate k ' ') = t := by
  cases t with
  | nil =>
    have : (List.replicate k ' ').dropWhile isSpace = [] := by
      rw [List.dropWhile_eq_nil_iff]
      intro c hc
      rw [List.eq_of_mem_replicate hc]
      exact space_isSpace
    simp [trimSpace, this]
  | cons c t =>
    have hc : isSpace c = false := ht.1 c rfl
    have hd : List.dropWhile isSpace (c :: t ++ List.replicate k ' ') =
        c :: t ++ List.replicate k ' ' := by
      simp [List.dropWhile, hc]
    have h2 := trimSpace_of_trimmed (c :: t) ht
    have hd2 : List.dropWhile isSpace (c :: t) = c :: t := by
      simp [List.dropWhile, hc]
    unfold trimSpace at h2 ⊢
    rw [hd, rdropWhile_append_spaces]
    rw [hd2] at h2
    exact h2

theorem trimmed_trimSpace (x : Str) : Trimmed (trimSpace x) := by
  have hhead : ∀ c ∈ (x.dropWhile isSpace).head?, isSpace c = false := by
    intro c hc
    have := List.head?_dropWhile_not isSpace x
    rw [Option.mem_def.mp hc] at this
    simpa using this
  constructor
  · intro c hc
    apply hhead c
    obtain ⟨r, hr⟩ := List.rdropWhile_prefix isSpace (x.dropWhile isSpace)
    unfold trimSpace at hc
    rw [← hr]
    cases hz : List.rdropWhile isSpace (x.dropWhile isSpace) with
    | nil => rw [hz] at hc; cases hc
    | cons a z => rw [hz] at hc; simpa using hc
  · intro c hc
    unfold trimSpace at hc
    have hne : List.rdropWhile isSpace (x.dropWhile isSpace) ≠ [] := by
      intro h0; rw [h0] at hc; cases hc
    have := List.rdropWhile_last_not isSpace (x.dropWhile isSpace) hne
    rw [List.getLast?_eq_getLast _ hne] at hc
    have hcc : (List.rdropWhile isSpace (x.dropWhile isSpace)).getLast hne = c :=
      Option.some.inj hc
    rw [hcc] at this
    simpa using this

theorem trimmed_map (f : Char → Char) (s : Str) (hs : Trimmed s)
    (h : ∀ c ∈ s, isSpace (f c) = isSpace c) : Trimmed (s.map f) := by
  constructor
  · intro c hc
    rw [List.head?_map] at hc
    obtain ⟨a, ha, rfl⟩ := Option.map_eq_some'.mp hc
    rw [h a (List.mem_of_mem_head? ha)]
    exact hs.1 a ha
  · intro c hc
    rw [List.getLast?_map] at hc
    obtain ⟨a, ha, rfl⟩ := Option.map_eq_some'.mp hc
    rw [h a (List.mem_of_mem_getLast? ha)]
    exact hs.2 a ha

theorem norm_stable (E : Env V) (x : Str) (h : IsAscii x) :
    Trimmed (toUpper E (trimSpace x)) ∧
      toUpper E (toUpper E (trimSpace x)) = toUpper E (trimSpace x) := by
  have ha := isAscii_trimSpace x h
  constructor
  · unfold toUpper
    apply trimmed_map _ _ (trimmed_trimSpace x)
    intro c hc
    rw [toUpperRune_ascii E c (ha c hc)]
    exact (ascii_case c (ha c hc)).2.2.2.2.1
  · unfold toUpper
    rw [List.map_map]
    apply List.map_congr_left
    intro c hc
    simp only [Function.comp]
    rw [toUpperRune_ascii E c (ha c hc), toUpperRune_ascii E _ (ascii_case c (ha c hc)).1]
    exact (ascii_case c (ha c hc)).2.2.1

theorem norm_pad (E : Env V) (t : Str) (hT : Trimmed t) (hU : toUpper E t = t) :
    toUpper E (trimSpace (padRight5 t)) = t := by
  unfold padRight5
  rw [trimSpace_append_spaces t _ hT, hU]

theorem canonText_stable (E : Env V) (u : Str) (hT : Trimmed u) (hU : toUpper E u = u) :
    Trimmed (canonText u) ∧ toUpper E (canonText u) = canonText u := by
  unfold canonText
  split
  · exact ⟨by decide, rfl⟩
  · split
    · exact ⟨by decide, rfl⟩
    · split
      · exact ⟨by decide, rfl⟩
      · exact ⟨hT, hU⟩

theorem canonText_idem (u : Str) :
    canonText (canonText u) = canonText u ∧ specRank (canonText u) = specRank u := by
  by_cases h1 : u ∈ ["WARN".toList, "WRN".toList, "WARNING".toList]
  · have hc : canonText u = "WARN".toList := by simp only [canonText, if_pos h1]
    rw [hc]
    simp only [List.mem_cons, List.mem_singleton, List.not_mem_nil, or_false] at h1
    rcases h1 with h | h | h <;> subst h <;> decide
  by_cases h2 : u ∈ ["ERROR".toList, "ERR".toList]
  · have hc : canonText u = "ERROR".toList := by simp only [canonText, if_neg h1, if_pos h2]
    rw [hc]
    simp only [List.mem_cons, List.mem_singleton, List.not_mem_nil, or_false] at h2
    rcases h2 with h | h <;> subst h <;> decide
  by_cases h3 : u ∈ ["FATAL".toList, "CRIT".toList, "CRITICAL".toList]
  · have hc : canonText u = "FATAL".toList := by
      simp only [canonText, if_neg h1, if_neg h2, if_pos h3]
    rw [hc]
    simp only [List.mem_cons, List.mem_singleton, List.not_mem_nil, or_false] at h3
    rcases h3 with h | h | h <;> subst h <;> decide
  have hc : canonText u = u := by simp only [canonText, if_neg h1, if_neg h2, if_neg h3]
  rw [hc, hc]
  exact ⟨rfl, rfl⟩

/-- On tokens of ASCII characters the level normalisation is idempotent and does not
depend on letter case, whatever the Unicode tables are. -/
theorem normalise_ascii (E : Env V) (x : Str) (hx : IsAscii x) :
    levelLabel E (levelLabel E x) = levelLabel E x ∧
      levelRank E (levelLabel E x) = levelRank E x ∧
      levelLabel E (toUpper E x) = levelLabel E x ∧
      levelLabel E (toLower E x) = levelLabel E x ∧
      levelRank E (toUpper E x) = levelRank E x ∧
      levelRank E (toLower E x) = levelRank E x := by
  have hs := norm_stable E x hx
  have hcs := canonText_stable E _ hs.1 hs.2
  have hnp := norm_pad E _ hcs.1 hcs.2
  have hid := canonText_idem (toUpper E (trimSpace x))
  refine ⟨?_, ?_, ?_, ?_, ?_, ?_⟩
  · rw [levelLabel_eq_pad E (levelLabel E x), levelLabel_eq_pad E x, hnp, hid.1]
  · rw [levelRank_eq_specRank E (levelLabel E x), levelLabel_eq_pad E x, hnp, hid.2,
      levelRank_eq_specRank E x]
  · rw [levelLabel_eq_pad, toUpper_trim_toUpper E x hx, ← levelLabel_eq_pad]
  · rw [levelLabel_eq_pad, toUpper_trim_toLower E x hx, ← levelLabel_eq_pad]
  · rw [levelRank_eq_specRank, toUpper_trim_toUpper E x hx, ← levelRank_eq_specRank]
  · rw [levelRank_eq_specRank, toUpper_trim_toLower E x hx, ← levelRank_eq_specRank]

/-- C14 as stated fails outside ASCII: Go lower-cases U+0130 (capital I with dot above)
to `i` and upper-cases it to itself.  The token `WARN` U+0130 `NG` is not in the table
(rank 1, label the token itself), while its lower-cased form is `warning` (rank 2,
label `WARN `). -/
theorem C14_counterexample :
    levelRank plainEnv ("WARN".toList ++ [Char.ofNat 0x130] ++ "NG".toList) = 1 ∧
      toLower plainEnv ("WARN".toList ++ [Char.ofNat 0x130] ++ "NG".toList) =
        "warning".toList ∧
      levelRank plainEnv
        (toLower plainEnv ("WARN".toList ++ [Char.ofNat 0x130] ++ "NG".toList)) = 2 ∧
      levelLabel plainEnv
        (toLower plainEnv ("WARN".toList ++ [Char.ofNat 0x130] ++ "NG".toList)) ≠
        levelLabel plainEnv ("WARN".toList ++ [Char.ofNat 0x130] ++ "NG".toList) := by
  decide

/-! ## The order of the segments -/

theorem headParts_render (E : Env V) (ts level msg : Str) :
    (headParts ts level msg).map (Seg.render E) =
      (if ts ≠ [] then [formatTime E ts] else []) ++
      (if level ≠ [] then [formatLevel E level] else []) ++
      (if msg ≠ [] then [E.render Style.msg msg] else []) := by
  unfold headParts
  by_cases h1 : ts = [] <;> by_cases h2 : level = [] <;> by_cases h3 : msg = [] <;>
    simp [h1, h2, h3, Seg.render]

theorem skip_getD (a b c k : Str) :
    (mapGet (mapSet (mapSet (mapSet ([] : GoMap Bool) a true) b true) c true) k).getD false =
      decide (k ∈ [a, b, c]) := by
  rw [mapGet_mapSet, mapGet_mapSet, mapGet_mapSet]
  by_cases h1 : k = c <;> by_cases h2 : k = b <;> by_cases h3 : k = a <;>
    simp [h1, h2, h3, mapGet]

theorem filterMap_ite {α β : Type} (l : List α) (p : α → Bool) (g : α → β) :
    l.filterMap (fun x => if p x = true then none else some (g x)) =
      (l.filter (fun x => !p x)).map g := by
  induction l with
  | nil => rfl
  | cons a l ih =>
    by_cases h : p a = true
    · simp [List.filterMap_cons, List.filter_cons, h, ih]
    · simp [List.filterMap_cons, List.filter_cons, h, ih]

/-- The output of `FormatLine` for a logfmt line with at least one segment, and for a
decoded JSON object, as the join of the rendered segments written out. -/
theorem segment_order_explicit (E : Env V) (raw : Str) (opts : Options)
    (h0 : trimSpace raw ≠ [])
    (hf : opts.Filter = [] ∨
      contains (toLower E (trimSpace raw)) (toLower E opts.Filter) = true) :
    (hasPrefix (trimSpace raw) ['{'] = false → '=' ∈ trimSpace raw →
      ∀ pairs, parseLogfmt (trimSpace raw) = .ok pairs →
        belowMin E opts (collect E pairs).level = false →
        (if (collect E pairs).ts ≠ [] then [formatTime E (collect E pairs).ts] else []) ++
          (if (collect E pairs).level ≠ [] then [formatLevel E (collect E pairs).level]
            else []) ++
          (if (collect E pairs).msg ≠ [] then [E.render Style.msg (collect E pairs).msg]
            else []) ++
          (if opts.TimeOnly = true then []
            else (E.rangeKV (collect E pairs).kvMap).map (fun kv => formatKV E kv.1 kv.2))
          ≠ [] →
        FormatLine E raw opts = .ok (join (
          (if (collect E pairs).ts ≠ [] then [formatTime E (collect E pairs).ts] else []) ++
          (if (collect E pairs).level ≠ [] then [formatLevel E (collect E pairs).level]
            else []) ++
          (if (collect E pairs).msg ≠ [] then [E.render Style.msg (collect E pairs).msg]
            else []) ++
          (if opts.TimeOnly = true then []
            else (E.rangeKV (collect E pairs).kvMap).map (fun kv => formatKV E kv.1 kv.2)))
          [' '])) ∧
    (hasPrefix (trimSpace raw) ['{'] = true →
      ∀ m, E.unmarshal (trimSpace raw) = some m →
        belowMin E opts (jsonFind E m jsonLevelKeys).2 = false →
        FormatLine E raw opts = .ok (join (
          (if (jsonFind E m jsonTimeKeys).2 ≠ [] then
            [formatTime E (jsonFind E m jsonTimeKeys).2] else []) ++
          (if (jsonFind E m jsonLevelKeys).2 ≠ [] then
            [formatLevel E (jsonFind E m jsonLevelKeys).2] else []) ++
          (if (jsonFind E m jsonMsgKeys).2 ≠ [] then
            [E.render Style.msg (jsonFind E m jsonMsgKeys).2] else []) ++
          (if opts.TimeOnly = true then []
            else ((E.rangeJSON m).filter (fun kv => decide (kv.1 ∉
                [(jsonFind E m jsonLevelKeys).1, (jsonFind E m jsonMsgKeys).1,
                  (jsonFind E m jsonTimeKeys).1]))).map
              (fun kv => formatKV E kv.1 (E.sprintV kv.2))))
          [' '])) := by
  have c2 : ¬ (opts.Filter ≠ [] ∧
      ¬ contains (toLower E (trimSpace raw)) (toLower E opts.Filter) = true) := by
    rintro ⟨h1, h2⟩
    rcases hf with hf | hf
    · exact h1 hf
    · exact h2 hf
  constructor
  · intro hj he pairs hp hmin hne
    have c3 : ¬ hasPrefix (trimSpace raw) ['{'] = true := by simp [hj]
    have c4 : contains (trimSpace raw) ['='] = true := (contains_eq_mem _ _).mpr he
    have hparts : (logfmtParts E (collect E pairs) opts).map (Seg.render E) =
        (if (collect E pairs).ts ≠ [] then [formatTime E (collect E pairs).ts] else []) ++
          (if (collect E pairs).level ≠ [] then [formatLevel E (collect E pairs).level]
            else []) ++
          (if (collect E pairs).msg ≠ [] then [E.render Style.msg (collect E pairs).msg]
            else []) ++
          (if opts.TimeOnly = true then []
            else (E.rangeKV (collect E pairs).kvMap).map
              (fun kv => formatKV E kv.1 kv.2)) := by
      unfold logfmtParts
      rw [List.map_append, headParts_render]
      by_cases hT : opts.TimeOnly = true
      · simp [hT]
      · simp [hT, Seg.render, Function.comp_def]
    have hlen : (logfmtParts E (collect E pairs) opts).length ≠ 0 := by
      intro hz
      rw [List.length_eq_zero] at hz
      rw [hz] at hparts
      exact hne hparts.symm
    unfold FormatLine
    rw [if_neg h0, if_neg c2, if_neg c3, if_pos c4]
    unfold formatLogfmt
    simp only [hp, hmin, Bool.false_eq_true, if_false, hlen, hparts]
  · intro hj m hm hmin
    have hparts : (jsonParts E m opts).map (Seg.render E) =
        (if (jsonFind E m jsonTimeKeys).2 ≠ [] then
            [formatTime E (jsonFind E m jsonTimeKeys).2] else []) ++
          (if (jsonFind E m jsonLevelKeys).2 ≠ [] then
            [formatLevel E (jsonFind E m jsonLevelKeys).2] else []) ++
          (if (jsonFind E m jsonMsgKeys).2 ≠ [] then
            [E.render Style.msg (jsonFind E m jsonMsgKeys).2] else []) ++
          (if opts.TimeOnly = true then []
            else ((E.rangeJSON m).filter (fun kv => decide (kv.1 ∉
                [(jsonFind E m jsonLevelKeys).1, (jsonFind E m jsonMsgKeys).1,
                  (jsonFind E m jsonTimeKeys).1]))).map
              (fun kv => formatKV E kv.1 (E.sprintV kv.2))) := by
      unfold jsonParts
      simp only []
      rw [List.map_append, headParts_render]
      by_cases hT : opts.TimeOnly = true
      · simp [hT]
      · have hT2 : opts.TimeOnly = false := by simpa using hT
        simp only [hT2, Bool.false_eq_true, not_false_eq_true, if_true, if_false, skip_getD,
          filterMap_ite, List.map_map, decide_not]
        rfl
    unfold FormatLine
    rw [if_neg h0, if_neg c2, if_pos hj]
    unfold formatJSON
    simp only [hm, hmin, Bool.false_eq_true, if_false, hparts]

/-! ## No slice is out of range -/

theorem utf8Size_ascii (c : Char) (h : c.toNat < 128) : c.utf8Size = 1 := by
  have key : ∀ n, n < 128 → (Char.ofNat n).utf8Size = 1 := by decide
  have := key c.toNat h
  rwa [Char.ofNat_toNat] at this

theorem utf8Size_dotless (c : Char) (h : c.toNat = 0x131 ∨ c.toNat = 0x17F) :
    c.utf8Size = 2 := by
  have h1 : (Char.ofNat 0x131).utf8Size = 2 := by decide
  have h2 : (Char.ofNat 0x17F).utf8Size = 2 := by decide
  rcases h with h | h
  · rw [← Char.ofNat_toNat c, h]; exact h1
  · rw [← Char.ofNat_toNat c, h]; exact h2

theorem length_le_byteLen (s : Str) : s.length ≤ byteLen s := by
  induction s with
  | nil => simp [byteLen]
  | cons c s ih =>
    have := Char.utf8Size_pos c
    simp only [List.length_cons, byteLen]
    omega

theorem sliceFrom_in_range (n : Nat) (s : Str) (h : n ≤ byteLen s) :
    sliceFrom n s ≠ .error .outOfRange := by
  induction s generalizing n with
  | nil =>
    have : n = 0 := by simpa [byteLen] using h
    subst this
    simp [sliceFrom]
  | cons c s ih =>
    cases n with
    | zero => simp [sliceFrom]
    | succ n =>
      rw [sliceFrom]
      by_cases hc : c.utf8Size ≤ n + 1
      · rw [if_pos hc]
        apply ih
        simp only [byteLen] at h
        omega
      · rw [if_neg hc]
        intro h2
        cases h2

theorem hasPrefix_length (s p : Str) (h : hasPrefix s p = true) : p.length ≤ s.length := by
  have : p <+: s := by simpa [hasPrefix] using h
  exact this.length_le

theorem known_byteLen : ∀ lvl ∈ knownLevelPrefixes, byteLen lvl = lvl.length := by
  decide

theorem tryPrefixLoop_in_range (raw upper : Str) (hlen : upper.length = raw.length)
    (lvls : List Str) (hl : ∀ lvl ∈ lvls, byteLen lvl = lvl.length) :
    tryPrefixLoop raw upper lvls ≠ .error .outOfRange := by
  induction lvls with
  | nil => simp [tryPrefixLoop]
  | cons lvl lvls ih =>
    rw [tryPrefixLoop]
    by_cases hp : hasPrefix upper lvl = true
    · rw [if_neg (by simpa using hp)]
      have hle : byteLen lvl ≤ byteLen raw := by
        have h1 := hasPrefix_length upper lvl hp
        have h2 := length_le_byteLen raw
        rw [hl lvl (List.mem_cons_self _ _)]
        omega
      have hs := sliceFrom_in_range (byteLen lvl) raw hle
      cases hsl : sliceFrom (byteLen lvl) raw with
      | error e =>
        simp only []
        intro h2
        rw [hsl] at hs
        cases h2
        exact hs rfl
      | ok rest =>
        simp only []
        intro h2
        cases h2
    · rw [if_pos (by simpa using hp)]
      exact ih (fun l hl2 => hl l (List.mem_cons_of_mem _ hl2))

theorem tryPrefixFormat_in_range (E : Env V) (raw : Str) :
    tryPrefixFormat E raw ≠ .error .outOfRange :=
  tryPrefixLoop_in_range raw (toUpper E raw) (by simp [toUpper]) knownLevelPrefixes
    known_byteLen

theorem cut_ok (E : Env V) (hE : ∀ c : Char, 128 ≤ c.toNat → 128 ≤ (E.upperTable c).toNat)
    (lvl : Str) : ∀ (n : Nat) (raw : Str), safeCut lvl n = true →
      hasPrefix (toUpper E raw) lvl = true → ∃ r, sliceFrom n raw = .ok r := by
  induction lvl with
  | nil =>
    intro n raw hs _
    cases n with
    | zero => exact ⟨raw, by simp [sliceFrom]⟩
    | succ n => simp [safeCut] at hs
  | cons c l ih =>
    intro n raw hs hp
    cases n with
    | zero => exact ⟨raw, by simp [sliceFrom]⟩
    | succ n =>
      cases raw with
      | nil => simp [hasPrefix, toUpper] at hp
      | cons x raw =>
        simp only [hasPrefix, toUpper, List.map_cons, List.isPrefixOf, Bool.and_eq_true,
          beq_iff_eq] at hp
        obtain ⟨hxc, hrest⟩ := hp
        simp only [safeCut, Bool.and_eq_true, decide_eq_true_eq] at hs
        obtain ⟨⟨hc, hs1⟩, hs2⟩ := hs
        rw [sliceFrom]
        by_cases hx : x.toNat < 128
        · rw [utf8Size_ascii x hx, if_pos (by omega)]
          exact ih (n + 1 - 1) raw (by simpa using hs1) hrest
        · have hup : toUpperRune E x = c := hxc.symm
          unfold toUpperRune at hup
          rw [if_neg hx] at hup
          have hx2 : x.toNat = 0x131 ∨ x.toNat = 0x17F := by
            by_cases h1 : x.toNat = 0x131
            · exact Or.inl h1
            · by_cases h2 : x.toNat = 0x17F
              · exact Or.inr h2
              · rw [if_neg h1, if_neg h2] at hup
                have := hE x (by omega)
                rw [hup] at this
                omega
          have hcI : c = 'I' ∨ c = 'S' := by
            rcases hx2 with h1 | h2
            · rw [if_pos h1] at hup
              exact Or.inl hup.symm
            · have h1 : ¬ x.toNat = 0x131 := by omega
              rw [if_neg h1, if_pos h2] at hup
              exact Or.inr hup.symm
          rw [if_pos hcI] at hs2
          simp only [Bool.and_eq_true, decide_eq_true_eq] at hs2
          rw [utf8Size_dotless x hx2, if_pos hs2.1]
          have : n + 1 - 2 = n - 1 := by omega
          rw [this]
          exact ih (n - 1) raw hs2.2 hrest

theorem known_safeCut : ∀ lvl ∈ knownLevelPrefixes, safeCut lvl (byteLen lvl) = true := by
  decide

theorem tryPrefixLoop_ok (E : Env V)
    (hE : ∀ c : Char, 128 ≤ c.toNat → 128 ≤ (E.upperTable c).toNat) (raw : Str)
    (lvls : List Str) (hl : ∀ lvl ∈ lvls, safeCut lvl (byteLen lvl) = true) :
    ∃ r, tryPrefixLoop raw (toUpper E raw) lvls = .ok r := by
  induction lvls with
  | nil => exact ⟨none, rfl⟩
  | cons lvl lvls ih =>
    rw [tryPrefixLoop]
    by_cases hp : hasPrefix (toUpper E raw) lvl = true
    · rw [if_neg (by simpa using hp)]
      obtain ⟨r, hr⟩ := cut_ok E hE lvl _ raw (hl lvl (List.mem_cons_self _ _)) hp
      rw [hr]
      exact ⟨_, rfl⟩
    · rw [if_pos (by simpa using hp)]
      exact ih (fun l hl2 => hl l (List.mem_cons_of_mem _ hl2))

theorem FormatLine_cases (E : Env V) (raw : Str) (opts : Options) :
    (∃ out, FormatLine E raw opts = .ok out) ∨
      ∃ e, tryPrefixFormat E (trimSpace raw) = .error e ∧
        FormatLine E raw opts = .error e := by
  unfold FormatLine
  simp only []
  split
  · exact Or.inl ⟨_, rfl⟩
  · split
    · exact Or.inl ⟨_, rfl⟩
    · split
      · exact Or.inl ⟨_, rfl⟩
      · split
        · left
          unfold formatLogfmt
          obtain ⟨ps, hps⟩ := parseLogfmt_ok (trimSpace raw)
          simp only [hps]
          split
          · exact ⟨_, rfl⟩
          · split <;> exact ⟨_, rfl⟩
        · split
          · rename_i e he
            exact Or.inr ⟨e, he, rfl⟩
          · left
            split <;> exact ⟨_, rfl⟩
          · exact Or.inl ⟨_, rfl⟩

/-- C17: no slice expression of `parseLogfmt` or `tryPrefixFormat` is out of range.
`parseLogfmt` returns a list of pairs on every string, `tryPrefixFormat` and
`FormatLine` never stop with the out-of-range fault, and when the Unicode upper-case
table maps no rune outside ASCII into ASCII (other than U+0131 and U+017F)
`FormatLine` returns a string on every line and for every options value. -/
theorem C17_no_out_of_range (E : Env V) (raw : Str) (opts : Options) :
    (∃ ps, parseLogfmt raw = .ok ps) ∧
      tryPrefixFormat E raw ≠ .error .outOfRange ∧
      FormatLine E raw opts ≠ .error .outOfRange ∧
      ((∀ c : Char, 128 ≤ c.toNat → 128 ≤ (E.upperTable c).toNat) →
        ∃ out, FormatLine E raw opts = .ok out) := by
  refine ⟨parseLogfmt_ok raw, tryPrefixFormat_in_range E raw, ?_, ?_⟩
  · rcases FormatLine_cases E raw opts with ⟨out, h⟩ | ⟨e, he, h⟩
    · rw [h]; intro h2; cases h2
    · rw [h]
      intro h2
      cases h2
      exact tryPrefixFormat_in_range E (trimSpace raw) he
  · intro hE
    rcases FormatLine_cases E raw opts with h | ⟨e, he, h⟩
    · exact h
    · obtain ⟨r, hr⟩ := tryPrefixLoop_ok E hE (trimSpace raw) knownLevelPrefixes known_safeCut
      unfold tryPrefixFormat at he
      rw [hr] at he
      cases he

/-- Witness of C17: the line `INFO` with a dotless i (U+0131) as its first rune. -/
theorem C17_no_out_of_range_witness :
    ∃ out, FormatLine plainEnv ([Char.ofNat 0x131] ++ "nfo: up".toList) noOpts = .ok out :=
  (C17_no_out_of_range plainEnv ([Char.ofNat 0x131] ++ "nfo: up".toList) noOpts).2.2.2
    (fun _ h => h)

/-! ## Termination of the parser -/

theorem parseLoop_step (fuel : Nat) (s : Str) (acc : List Pair) (hs : s ≠ []) :
    parseLoop (fuel + 1) s acc =
      match parseStep s with
      | .error e => .error e
      | .ok (.stop p) => .ok (acc ++ [p])
      | .ok (.next p s2) => parseLoop fuel s2 (acc ++ [p]) := by
  rw [parseLoop, parseStep]
  simp only [hs, if_false]
  repeat' split
  all_goals simp_all

theorem byteLen_sublist (a b : Str) (h : a.Sublist b) : byteLen a ≤ byteLen b := by
  induction h with
  | slnil => exact Nat.le_refl _
  | cons c _ ih =>
    simp only [byteLen]
    omega
  | cons₂ c _ ih =>
    simp only [byteLen]
    omega

theorem trimSpace_byteLen_le (s : Str) : byteLen (trimSpace s) ≤ byteLen s :=
  byteLen_sublist _ _ (trimSpace_sub s).sublist

theorem byteLen_pos (s : Str) (hs : s ≠ []) : 0 < byteLen s := by
  cases s with
  | nil => exact absurd rfl hs
  | cons c s =>
    have := Char.utf8Size_pos c
    simp only [byteLen]
    omega

theorem parseStep_ok (s : Str) (hs : s ≠ []) :
    ∃ st, parseStep s = .ok st ∧
      ∀ p s2, st = .next p s2 → byteLen s2 < byteLen s ∧ s2.length < s.length := by
  have hlen : 0 < s.length := List.length_pos.mpr hs
  have hbl := byteLen_pos s hs
  unfold parseStep
  cases hi : indexByte '=' s with
  | none => exact ⟨_, rfl, fun p s2 h => by cases h⟩
  | some eqIdx =>
    obtain ⟨p, q, hpq, -, hidx⟩ := indexByte_some '=' s eqIdx hi
    have hq : q.length < s.length := by
      rw [hpq]
      simp only [List.length_append, List.length_cons]
      omega
    have hqb : byteLen q < byteLen s := by
      have := Char.utf8Size_pos '='
      rw [hpq, byteLen_append]
      simp only [byteLen]
      omega
    simp only [hidx, hpq, sliceTo_append, sliceFrom_append_succ p q '=' rfl]
    rw [← hpq]
    by_cases hquote : hasPrefix q ['"'] = true
    · rw [if_pos hquote]
      obtain ⟨q1, hq1⟩ : ∃ q1, q = '"' :: q1 := by
        cases q with
        | nil => simp [hasPrefix] at hquote
        | cons c q1 =>
          have : c = '"' := by
            simp only [hasPrefix, List.isPrefixOf, Bool.and_true, beq_iff_eq] at hquote
            exact hquote.symm
          exact ⟨q1, by rw [this]⟩
      have hs1 : sliceFrom 1 ('"' :: q1) = .ok q1 := by simp [sliceFrom, quote_size]
      simp only [hq1, hs1, index_singleton]
      cases he : indexByte '"' q1 with
      | none =>
        refine ⟨_, rfl, ?_⟩
        intro p2 s2 h
        cases h
        exact ⟨by simpa [byteLen] using hbl, by simpa using hlen⟩
      | some e =>
        obtain ⟨v, r, hvr, -, hev⟩ := indexByte_some '"' q1 e he
        have h2 : slice 1 (byteLen v + 1) ('"' :: (v ++ '"' :: r)) = .ok v := by
          have hto : sliceTo (byteLen v + 1) ('"' :: (v ++ '"' :: r)) = .ok ('"' :: v) := by
            have := sliceTo_append ('"' :: v) ('"' :: r)
            simpa [byteLen, Nat.add_comm, quote_size] using this
          simp [slice, hto, sliceFrom, quote_size]
        have h3 : sliceFrom (byteLen v + 2) ('"' :: (v ++ '"' :: r)) = .ok r := by
          have := sliceFrom_append ('"' :: (v ++ ['"'])) r
          simpa [byteLen, byteLen_append, quote_size, Nat.add_comm, Nat.add_left_comm]
            using this
        simp only [hev, hvr, h2, h3]
        refine ⟨_, rfl, ?_⟩
        intro p2 s2 h
        cases h
        have t1 := trimSpace_length_le r
        have t2 := trimSpace_byteLen_le r
        rw [hq1, hvr] at hq hqb
        simp only [List.length_append, List.length_cons, byteLen, byteLen_append] at hq hqb
        constructor <;> omega
    · rw [if_neg hquote]
      cases hsp : indexByte ' ' q with
      | none =>
        refine ⟨_, rfl, ?_⟩
        intro p2 s2 h
        cases h
        exact ⟨by simpa [byteLen] using hbl, by simpa using hlen⟩
      | some spIdx =>
        obtain ⟨v, r, hvr, -, hsv⟩ := indexByte_some ' ' q spIdx hsp
        simp only [hsv, hvr, sliceTo_append, sliceFrom_append_succ v r ' ' rfl]
        refine ⟨_, rfl, ?_⟩
        intro p2 s2 h
        cases h
        have t1 := trimSpace_length_le r
        have t2 := trimSpace_byteLen_le r
        rw [hvr] at hq hqb
        simp only [List.length_append, List.length_cons, byteLen, byteLen_append] at hq hqb
        constructor <;> omega

theorem parseLoop_fuel (f1 : Nat) : ∀ (f2 : Nat) (s : Str) (acc : List Pair),
    s.length ≤ f1 → s.length ≤ f2 → parseLoop f1 s acc = parseLoop f2 s acc := by
  induction f1 with
  | zero =>
    intro f2 s acc h1 _
    have : s = [] := List.length_eq_zero.mp (Nat.le_zero.mp h1)
    rw [this, parseLoop_nil, parseLoop_nil]
  | succ n ih =>
    intro f2 s acc h1 h2
    by_cases hs : s = []
    · rw [hs, parseLoop_nil, parseLoop_nil]
    · cases f2 with
      | zero => exact absurd (List.length_eq_zero.mp (Nat.le_zero.mp h2)) hs
      | succ m =>
        rw [parseLoop_step n s acc hs, parseLoop_step m s acc hs]
        obtain ⟨st, hst, hdec⟩ := parseStep_ok s hs
        rw [hst]
        cases st with
        | stop p => rfl
        | next p s2 =>
          have := (hdec p s2 rfl).2
          exact ih m s2 _ (by omega) (by omega)

/-- C20: `parseLogfmt` terminates on every string.  One iteration of its loop on a
non-empty `s` either leaves the loop (no `=` left) or goes on with a string that has
fewer bytes (and fewer runes) than `s`; the fuelled loop is that iteration repeated;
with fuel of at least the length of the line its result does not depend on the fuel;
and `parseLogfmt` returns a list of pairs on every input. -/
theorem C20_parser_terminates (s : Str) :
    (∃ ps, parseLogfmt s = .ok ps) ∧
      (∀ t : Str, t ≠ [] → ∃ st, parseStep t = .ok st ∧
        ∀ p t2, st = .next p t2 → byteLen t2 < byteLen t ∧ t2.length < t.length) ∧
      (∀ (fuel : Nat) (t : Str) (acc : List Pair), t ≠ [] →
        parseLoop (fuel + 1) t acc =
          match parseStep t with
          | .error e => .error e
          | .ok (.stop p) => .ok (acc ++ [p])
          | .ok (.next p t2) => parseLoop fuel t2 (acc ++ [p])) ∧
      (∀ fuel, (trimSpace s).length ≤ fuel →
        parseLoop fuel (trimSpace s) [] = parseLogfmt s) :=
  ⟨parseLogfmt_ok s, parseStep_ok, parseLoop_step,
    fun fuel h => parseLoop_fuel fuel _ _ [] h (Nat.le_refl _)⟩

/-- Witness of C20: one iteration on `a="x y"  b=2` goes on with `b=2`. -/
theorem C20_parser_terminates_witness :
    ∃ st, parseStep "a=\"x y\"  b=2".toList = .ok st ∧
      ∀ p t2, st = .next p t2 →
        byteLen t2 < byteLen "a=\"x y\"  b=2".toList ∧
          t2.length < "a=\"x y\"  b=2".toList.length :=
  (C20_parser_terminates []).2.1 "a=\"x y\"  b=2".toList (by decide)

/-! ## The filter is tested on the trimmed line -/

/-- C3 as stated fails when the filter is contained in the raw line only: the line
` abc ` is a Plain line and contains the filter ` abc`, but the filter is tested on
the trimmed line `abc`, and `FormatLine` returns the empty string. -/
theorem C3_counterexample :
    trimSpace " abc ".toList = "abc".toList ∧
      hasPrefix (trimSpace " abc ".toList) ['{'] = false ∧
      '=' ∉ trimSpace " abc ".toList ∧
      tryPrefixFormat plainEnv (trimSpace " abc ".toList) = .ok none ∧
      " abc".toList <:+: " abc ".toList ∧
      FormatLine plainEnv " abc ".toList ⟨" abc".toList, [], false, false⟩ = .ok [] := by
  decide

/-! ## The severity filter across two calls -/

theorem join_eq_nil_iff (l : List Str) : join l [' '] = [] ↔ l = [] ∨ l = [[]] := by
  cases l with
  | nil => simp [join, List.intercalate]
  | cons a l =>
    cases l with
    | nil => simp [join_singleton]
    | cons b l =>
      rw [join_cons _ _ _ (by simp)]
      simp

theorem join_ne_nil_of_perm (l1 l2 : List Str) (h : l1.Perm l2)
    (h1 : join l1 [' '] ≠ []) : join l2 [' '] ≠ [] := by
  intro h2
  apply h1
  rw [join_eq_nil_iff] at h2 ⊢
  rcases h2 with h2 | h2
  · left
    rw [h2] at h
    exact List.Perm.eq_nil h
  · right
    rw [h2] at h
    exact List.perm_singleton.mp h

theorem render_withRange (E : Env V) (r2 : GoMap Str → GoMap Str) (j2 : GoMap V → GoMap V)
    (s : Seg) : Seg.render (withRange E r2 j2) s = Seg.render E s := by
  cases s <;> rfl

theorem formatLogfmt_shown (E : Env V) (r2 : GoMap Str → GoMap Str)
    (j2 : GoMap V → GoMap V) (hp1 : ∀ m, (E.rangeKV m).Perm m) (hp2 : ∀ m, (r2 m).Perm m)
    (raw : Str) (o1 o2 : Options) (hT : o1.TimeOnly = o2.TimeOnly)
    (hm : ∀ lvl, belowMin E o2 lvl = true → belowMin E o1 lvl = true) (out : Str)
    (h : formatLogfmt E raw o1 = .ok out) (hout : out ≠ []) :
    ∃ out2, formatLogfmt (withRange E r2 j2) raw o2 = .ok out2 ∧ out2 ≠ [] := by
  unfold formatLogfmt at h ⊢
  cases hp : parseLogfmt raw with
  | error e => simp [hp] at h
  | ok pairs =>
    simp only [hp] at h ⊢
    have hcol : collect (withRange E r2 j2) pairs = collect E pairs := rfl
    have hbm : ∀ lvl, belowMin (withRange E r2 j2) o2 lvl = belowMin E o2 lvl := fun _ => rfl
    rw [hcol, hbm]
    by_cases h1 : belowMin E o1 (collect E pairs).level = true
    · rw [if_pos h1] at h
      cases h
      exact absurd rfl hout
    have h2 : ¬ belowMin E o2 (collect E pairs).level = true := fun h => h1 (hm _ h)
    rw [if_neg h1] at h
    rw [if_neg h2]
    have hperm : (logfmtParts E (collect E pairs) o1).Perm
        (logfmtParts (withRange E r2 j2) (collect E pairs) o2) := by
      unfold logfmtParts
      apply List.Perm.append_left
      rw [hT]
      by_cases hTO : o2.TimeOnly = true
      · simp [hTO]
      · simp only [hTO, not_false_eq_true, if_true]
        exact List.Perm.map _ ((hp1 _).trans (hp2 _).symm)
    by_cases hz : (logfmtParts E (collect E pairs) o1).length = 0
    · rw [if_pos hz] at h
      rw [if_pos (by rw [← hperm.length_eq]; exact hz)]
      cases h
      exact ⟨_, rfl, hout⟩
    · rw [if_neg hz] at h
      rw [if_neg (by rw [← hperm.length_eq]; exact hz)]
      cases h
      refine ⟨_, rfl, ?_⟩
      apply join_ne_nil_of_perm _ _ _ hout
      have hfun : Seg.render (withRange E r2 j2) = Seg.render E :=
        funext (render_withRange E r2 j2)
      rw [hfun]
      exact List.Perm.map _ hperm

theorem formatJSON_shown (E : Env V) (r2 : GoMap Str → GoMap Str)
    (j2 : GoMap V → GoMap V) (hj1 : ∀ m, (E.rangeJSON m).Perm m) (hj2 : ∀ m, (j2 m).Perm m)
    (raw : Str) (o1 o2 : Options) (hT : o1.TimeOnly = o2.TimeOnly)
    (hm : ∀ lvl, belowMin E o2 lvl = true → belowMin E o1 lvl = true)
    (hout : formatJSON E raw o1 ≠ []) : formatJSON (withRange E r2 j2) raw o2 ≠ [] := by
  unfold formatJSON at hout ⊢
  have hun : (withRange E r2 j2).unmarshal raw = E.unmarshal raw := rfl
  rw [hun]
  cases hu : E.unmarshal raw with
  | none =>
    simp only [hu] at hout ⊢
    exact hout
  | some m =>
    simp only [hu] at hout ⊢
    have hjf : ∀ keys, jsonFind (withRange E r2 j2) m keys = jsonFind E m keys := by
      intro keys
      induction keys with
      | nil => rfl
      | cons k ks ih =>
        unfold jsonFind
        rw [ih]
        rfl
    have hbm : ∀ lvl, belowMin (withRange E r2 j2) o2 lvl = belowMin E o2 lvl := fun _ => rfl
    rw [hjf, hbm]
    by_cases h1 : belowMin E o1 (jsonFind E m jsonLevelKeys).2 = true
    · rw [if_pos h1] at hout
      exact absurd rfl hout
    have h2 : ¬ belowMin E o2 (jsonFind E m jsonLevelKeys).2 = true := fun h => h1 (hm _ h)
    rw [if_neg h1] at hout
    rw [if_neg h2]
    have hperm : (jsonParts E m o1).Perm (jsonParts (withRange E r2 j2) m o2) := by
      unfold jsonParts
      simp only [hjf]
      apply List.Perm.append_left
      rw [hT]
      by_cases hTO : o2.TimeOnly = true
      · simp [hTO]
      · simp only [hTO, not_false_eq_true, if_true]
        exact List.Perm.filterMap _ ((hj1 _).trans (hj2 _).symm)
    apply join_ne_nil_of_perm _ _ _ hout
    have hfun : Seg.render (withRange E r2 j2) = Seg.render E :=
      funext (render_withRange E r2 j2)
    rw [hfun]
    exact List.Perm.map _ hperm

theorem FormatLine_shown (E : Env V) (r2 : GoMap Str → GoMap Str) (j2 : GoMap V → GoMap V)
    (hp1 : ∀ m, (E.rangeKV m).Perm m) (hp2 : ∀ m, (r2 m).Perm m)
    (hj1 : ∀ m, (E.rangeJSON m).Perm m) (hj2 : ∀ m, (j2 m).Perm m)
    (raw : Str) (o1 o2 : Options)
    (hF : o1.Filter = o2.Filter) (hT : o1.TimeOnly = o2.TimeOnly)
    (hm : ∀ lvl, belowMin E o2 lvl = true → belowMin E o1 lvl = true) (out : Str)
    (h : FormatLine E raw o1 = .ok out) (hout : out ≠ []) :
    ∃ out2, FormatLine (withRange E r2 j2) raw o2 = .ok out2 ∧ out2 ≠ [] := by
  unfold FormatLine at h ⊢
  rw [hF] at h
  have hlow : ∀ s, toLower (withRange E r2 j2) s = toLower E s := fun _ => rfl
  have htp : ∀ s, tryPrefixFormat (withRange E r2 j2) s = tryPrefixFormat E s := fun _ => rfl
  have hbm : ∀ lvl, belowMin (withRange E r2 j2) o2 lvl = belowMin E o2 lvl := fun _ => rfl
  have hfun : Seg.render (withRange E r2 j2) = Seg.render E :=
    funext (render_withRange E r2 j2)
  simp only [hlow, htp, hbm, hfun]
  by_cases c1 : trimSpace raw = []
  · rw [if_pos c1] at h
    cases h
    exact absurd rfl hout
  rw [if_neg c1] at h ⊢
  by_cases c2 : o2.Filter ≠ [] ∧
      ¬ contains (toLower E (trimSpace raw)) (toLower E o2.Filter) = true
  · rw [if_pos c2] at h
    cases h
    exact absurd rfl hout
  rw [if_neg c2] at h ⊢
  by_cases c3 : hasPrefix (trimSpace raw) ['{'] = true
  · rw [if_pos c3] at h ⊢
    have hj : formatJSON E (trimSpace raw) o1 = out := by cases h; rfl
    exact ⟨_, rfl, formatJSON_shown E r2 j2 hj1 hj2 _ o1 o2 hT hm (by rw [hj]; exact hout)⟩
  rw [if_neg c3] at h ⊢
  by_cases c4 : contains (trimSpace raw) ['='] = true
  · rw [if_pos c4] at h ⊢
    exact formatLogfmt_shown E r2 j2 hp1 hp2 _ o1 o2 hT hm out h hout
  rw [if_neg c4] at h ⊢
  cases hp : tryPrefixFormat E (trimSpace raw) with
  | error e => simp [hp] at h
  | ok r =>
    cases r with
    | none =>
      simp only [hp] at h ⊢
      cases h
      exact ⟨_, rfl, hout⟩
    | some lm =>
      obtain ⟨level, msg⟩ := lm
      simp only [hp] at h ⊢
      by_cases h1 : belowMin E o1 level = true
      · rw [if_pos h1] at h
        cases h
        exact absurd rfl hout
      · have h2 : ¬ belowMin E o2 level = true := fun h => h1 (hm _ h)
        rw [if_neg h1] at h
        rw [if_neg h2]
        cases h
        exact ⟨_, rfl, hout⟩

/-- C2, as the code has it: the severity filter is monotonic in a configured minimum
level.  For two minimum-level tokens `a` and `b` with `a` not empty and
`levelRank b ≤ levelRank a`, a line for which `FormatLine` returns a non-empty string
with `LevelMin = a` gets a non-empty string with `LevelMin = b` too, also when the
second call visits the maps in another order (each `range` visits every entry
once). -/
theorem C2_filter_monotone (E : Env V) (rangeKV2 : GoMap Str → GoMap Str)
    (rangeJSON2 : GoMap V → GoMap V)
    (hp1 : ∀ m, (E.rangeKV m).Perm m) (hp2 : ∀ m, (rangeKV2 m).Perm m)
    (hj1 : ∀ m, (E.rangeJSON m).Perm m) (hj2 : ∀ m, (rangeJSON2 m).Perm m)
    (raw : Str) (opts : Options) (a b out : Str)
    (ha : a ≠ []) (hr : levelRank E b ≤ levelRank E a)
    (h : FormatLine E raw { opts with LevelMin := a } = .ok out) (hout : out ≠ []) :
    ∃ out2, FormatLine (withRange E rangeKV2 rangeJSON2) raw { opts with LevelMin := b } =
      .ok out2 ∧ out2 ≠ [] := by
  apply FormatLine_shown E rangeKV2 rangeJSON2 hp1 hp2 hj1 hj2 raw
    { opts with LevelMin := a } { opts with LevelMin := b } rfl rfl _ out h hout
  intro lvl hl
  simp only [belowMin, decide_eq_true_eq] at hl ⊢
  exact ⟨ha, Nat.lt_of_lt_of_le hl.2 hr⟩

/-- Witness of C2: `level=error host=a up=1` is shown at `warn`, hence at `info`, the
second call visiting the attributes in the reverse order. -/
theorem C2_filter_monotone_witness :
    ∃ out2, FormatLine (withRange plainEnv List.reverse (fun m => m))
      "level=error host=a up=1".toList { noOpts with LevelMin := "info".toList } =
        .ok out2 ∧ out2 ≠ [] :=
  C2_filter_monotone plainEnv List.reverse (fun m => m) (fun _ => List.Perm.refl _)
    (fun m => List.reverse_perm m) (fun _ => List.Perm.refl _) (fun _ => List.Perm.refl _)
    "level=error host=a up=1".toList noOpts "warn".toList "info".toList
    "ERROR host=a up=1".toList (by decide) (by decide) (by decide) (by decide)

/-! ## The rendered attribute segment -/

theorem filter_eq_singleton {α : Type} (p : α → Bool) (l : List α) (x : α)
    (h : l.filter p = [x]) :
    ∃ a b, l = a ++ x :: b ∧ (∀ y ∈ a, p y = false) ∧ (∀ y ∈ b, p y = false) := by
  induction l with
  | nil => simp at h
  | cons y l ih =>
    by_cases hy : p y = true
    · rw [List.filter_cons, if_pos hy] at h
      have h1 : y = x := (List.cons.inj h).1
      have h2 : l.filter p = [] := (List.cons.inj h).2
      refine ⟨[], l, by rw [h1]; rfl, by simp, ?_⟩
      intro z hz
      have := List.filter_eq_nil_iff.mp h2 z hz
      simpa using this
    · rw [List.filter_cons, if_neg hy] at h
      obtain ⟨a, b, hl, ha, hb⟩ := ih h
      refine ⟨y :: a, b, by rw [hl]; rfl, ?_, hb⟩
      intro z hz
      rcases List.mem_cons.mp hz with hz | hz
      · rw [hz]; simpa using hy
      · exact ha z hz

/-- C8: in `formatLogfmt` (with `TimeOnly` not set, the line not below the minimum
level, and `range` visiting each entry of the attribute map once) every parsed pair
whose key is not read as level, message or timestamp is an attribute under the exact
text of its key.  The segments are `before`, one `key=value` segment for that key,
and `after`, where no segment of `before` and `after` has that key; the segment
carries the value of the last pair with exactly that key (so keys that differ in
letter case are separate attributes); and the output is the single-space join of the
rendered segments, the one of the attribute being the key in the key style, `=` in
the separator style and the value in the value style. -/
theorem C8_attribute_last_wins (E : Env V) (raw : Str) (opts : Options)
    (pairs : List Pair)
    (hparse : parseLogfmt raw = .ok pairs) (hT : opts.TimeOnly = false)
    (hmin : belowMin E opts (collect E pairs).level = false)
    (hperm : (E.rangeKV (collect E pairs).kvMap).Perm (collect E pairs).kvMap)
    (p : Pair) (hp : p ∈ pairs) (hk : recognised E p.k = false) :
    ∃ v before after, lastValue pairs p.k = some v ∧
      logfmtParts E (collect E pairs) opts = before ++ Seg.kv p.k v :: after ∧
      (∀ s ∈ before ++ after, s.key? ≠ some p.k) ∧
      formatLogfmt E raw opts =
        .ok (join (before.map (Seg.render E) ++
          (E.render Style.key p.k ++ E.render Style.sep ['='] ++ E.render Style.val v) ::
            after.map (Seg.render E)) [' ']) := by
  obtain ⟨v, hv, hfil, hfmt⟩ :=
    attribute_segment_unique E raw opts pairs hparse hT hmin hperm p hp hk
  obtain ⟨before, after, hl, hb, ha⟩ := filter_eq_singleton _ _ _ hfil
  refine ⟨v, before, after, hv, hl, ?_, ?_⟩
  · intro s hs
    rcases List.mem_append.mp hs with h | h
    · simpa using hb s h
    · simpa using ha s h
  · rw [hfmt, hl, List.map_append, List.map_cons]
    rfl

/-- Witness of C8: `host=web1 Host=2 level=warn host=3`. -/
theorem C8_attribute_last_wins_witness :
    ∃ v before after,
      lastValue [⟨"host".toList, "web1".toList⟩, ⟨"Host".toList, "2".toList⟩,
        ⟨"level".toList, "warn".toList⟩, ⟨"host".toList, "3".toList⟩] "host".toList = some v ∧
      logfmtParts colourEnv (collect colourEnv [⟨"host".toList, "web1".toList⟩,
        ⟨"Host".toList, "2".toList⟩, ⟨"level".toList, "warn".toList⟩,
        ⟨"host".toList, "3".toList⟩]) noOpts = before ++ Seg.kv "host".toList v :: after ∧
      (∀ s ∈ before ++ after, s.key? ≠ some "host".toList) ∧
      formatLogfmt colourEnv "host=web1 Host=2 level=warn host=3".toList noOpts =
        .ok (join (before.map (Seg.render colourEnv) ++
          (colourEnv.render Style.key "host".toList ++ colourEnv.render Style.sep ['='] ++
            colourEnv.render Style.val v) :: after.map (Seg.render colourEnv)) [' ']) :=
  C8_attribute_last_wins colourEnv "host=web1 Host=2 level=warn host=3".toList noOpts
    [⟨"host".toList, "web1".toList⟩, ⟨"Host".toList, "2".toList⟩,
      ⟨"level".toList, "warn".toList⟩, ⟨"host".toList, "3".toList⟩]
    (by decide) rfl (by decide) (List.Perm.refl _) ⟨"host".toList, "web1".toList⟩
    (by decide) (by decide)

/-! ## The level normaliser on every token -/

theorem toUpper_trim_toUpper_of (E : Env V)
    (hI : ∀ c, toUpperRune E (toUpperRune E c) = toUpperRune E c)
    (hS : ∀ c, isSpace (toUpperRune E c) = isSpace c) (x : Str) :
    toUpper E (trimSpace (toUpper E x)) = toUpper E (trimSpace x) := by
  unfold toUpper
  rw [trimSpace_map _ x (fun c _ => hS c), List.map_map]
  apply List.map_congr_left
  intro c _
  exact hI c

theorem norm_stable_of (E : Env V)
    (hI : ∀ c, toUpperRune E (toUpperRune E c) = toUpperRune E c)
    (hS : ∀ c, isSpace (toUpperRune E c) = isSpace c) (x : Str) :
    Trimmed (toUpper E (trimSpace x)) ∧
      toUpper E (toUpper E (trimSpace x)) = toUpper E (trimSpace x) := by
  constructor
  · unfold toUpper
    exact trimmed_map _ _ (trimmed_trimSpace x) (fun c _ => hS c)
  · unfold toUpper
    rw [List.map_map]
    apply List.map_congr_left
    intro c _
    exact hI c

theorem toUpper_trim_toLower_of (E : Env V) (x : Str)
    (h : ∀ c ∈ x, toUpperRune E (toLowerRune E c) = toUpperRune E c ∧
      isSpace (toLowerRune E c) = isSpace c) :
    toUpper E (trimSpace (toLower E x)) = toUpper E (trimSpace x) := by
  unfold toUpper toLower
  rw [trimSpace_map _ x (fun c hc => (h c hc).2), List.map_map]
  apply List.map_congr_left
  intro c hc
  exact (h c ((trimSpace_sub x).subset hc)).1

theorem lower_then_upper_ascii (E : Env V) (x : Str) (hx : IsAscii x) :
    ∀ c ∈ x, toUpperRune E (toLowerRune E c) = toUpperRune E c ∧
      isSpace (toLowerRune E c) = isSpace c := by
  intro c hc
  have ha := hx c hc
  rw [toLowerRune_ascii E c ha, toUpperRune_ascii E _ (ascii_case c ha).2.1,
    toUpperRune_ascii E c ha]
  exact ⟨(ascii_case c ha).2.2.2.1, (ascii_case c ha).2.2.2.2.2⟩

theorem plainEnv_upper (c : Char) :
    toUpperRune plainEnv (toUpperRune plainEnv c) = toUpperRune plainEnv c ∧
      isSpace (toUpperRune plainEnv c) = isSpace c := by
  by_cases h : c.toNat < 128
  · rw [toUpperRune_ascii plainEnv c h, toUpperRune_ascii plainEnv _ (ascii_case c h).1]
    exact ⟨(ascii_case c h).2.2.1, (ascii_case c h).2.2.2.2.1⟩
  · by_cases h1 : c.toNat = 0x131
    · have hc : toUpperRune plainEnv c = 'I' := by simp [toUpperRune, h, h1]
      have hsp : isSpace c = false := by
        rw [← Char.ofNat_toNat c, h1]; decide
      rw [hc, hsp]
      exact ⟨by decide, by decide⟩
    · by_cases h2 : c.toNat = 0x17F
      · have hc : toUpperRune plainEnv c = 'S' := by simp [toUpperRune, h, h1, h2]
        have hsp : isSpace c = false := by
          rw [← Char.ofNat_toNat c, h2]; decide
        rw [hc, hsp]
        exact ⟨by decide, by decide⟩
      · have hc : toUpperRune plainEnv c = c := by simp [toUpperRune, h, h1, h2, plainEnv]
        rw [hc, hc]
        exact ⟨rfl, rfl⟩

/-- C14, as the code has it.  Writing `levelLabel` for the text that `formatLevel`
renders: when the Unicode upper-case mapping is idempotent and keeps white space
apart from other runes (as Go's tables do), for every token `x` the label of the
label is the label, the rank of the label is the rank of `x`, and label and rank are
the same for `x` and for the upper-cased `x`.  Label and rank are the same for `x`
and for the lower-cased `x` when upper-casing undoes lower-casing on the runes of
`x` (and lower-casing keeps white space apart), which holds for every token of
ASCII characters. -/
theorem C14_normalise (E : Env V)
    (hI : ∀ c, toUpperRune E (toUpperRune E c) = toUpperRune E c)
    (hS : ∀ c, isSpace (toUpperRune E c) = isSpace c) (x : Str) :
    levelLabel E (levelLabel E x) = levelLabel E x ∧
      levelRank E (levelLabel E x) = levelRank E x ∧
      levelLabel E (toUpper E x) = levelLabel E x ∧
      levelRank E (toUpper E x) = levelRank E x ∧
      ((∀ c ∈ x, toUpperRune E (toLowerRune E c) = toUpperRune E c ∧
          isSpace (toLowerRune E c) = isSpace c) →
        levelLabel E (toLower E x) = levelLabel E x ∧
          levelRank E (toLower E x) = levelRank E x) ∧
      (IsAscii x →
        levelLabel E (toLower E x) = levelLabel E x ∧
          levelRank E (toLower E x) = levelRank E x) := by
  have hs := norm_stable_of E hI hS x
  have hcs := canonText_stable E _ hs.1 hs.2
  have hnp := norm_pad E _ hcs.1 hcs.2
  have hid := canonText_idem (toUpper E (trimSpace x))
  have hlow : (∀ c ∈ x, toUpperRune E (toLowerRune E c) = toUpperRune E c ∧
      isSpace (toLowerRune E c) = isSpace c) →
      levelLabel E (toLower E x) = levelLabel E x ∧
        levelRank E (toLower E x) = levelRank E x := by
    intro h
    constructor
    · rw [levelLabel_eq_pad, toUpper_trim_toLower_of E x h, ← levelLabel_eq_pad]
    · rw [levelRank_eq_specRank, toUpper_trim_toLower_of E x h, ← levelRank_eq_specRank]
  refine ⟨?_, ?_, ?_, ?_, hlow, fun hx => hlow (lower_then_upper_ascii E x hx)⟩
  · rw [levelLabel_eq_pad E (levelLabel E x), levelLabel_eq_pad E x, hnp, hid.1]
  · rw [levelRank_eq_specRank E (levelLabel E x), levelLabel_eq_pad E x, hnp, hid.2,
      levelRank_eq_specRank E x]
  · rw [levelLabel_eq_pad, toUpper_trim_toUpper_of E hI hS x, ← levelLabel_eq_pad]
  · rw [levelRank_eq_specRank, toUpper_trim_toUpper_of E hI hS x, ← levelRank_eq_specRank]

/-- Witness of C14: the token `Warn` U+0130 `ng` for idempotence and upper case, which
needs no ASCII, and the ASCII token ` Warning` for lower case. -/
theorem C14_normalise_witness :
    (levelLabel plainEnv (levelLabel plainEnv ("Warn".toList ++ [Char.ofNat 0x130] ++
        "ng".toList)) =
        levelLabel plainEnv ("Warn".toList ++ [Char.ofNat 0x130] ++ "ng".toList) ∧
      levelRank plainEnv (toUpper plainEnv ("Warn".toList ++ [Char.ofNat 0x130] ++
        "ng".toList)) =
        levelRank plainEnv ("Warn".toList ++ [Char.ofNat 0x130] ++ "ng".toList)) ∧
      (levelLabel plainEnv (toLower plainEnv " Warning".toList) =
          levelLabel plainEnv " Warning".toList ∧
        levelRank plainEnv (toLower plainEnv " Warning".toList) =
          levelRank plainEnv " Warning".toList) :=
  ⟨⟨(C14_normalise plainEnv (fun c => (plainEnv_upper c).1) (fun c => (plainEnv_upper c).2)
        ("Warn".toList ++ [Char.ofNat 0x130] ++ "ng".toList)).1,
      (C14_normalise plainEnv (fun c => (plainEnv_upper c).1)
        (fun c => (plainEnv_upper c).2)
        ("Warn".toList ++ [Char.ofNat 0x130] ++ "ng".toList)).2.2.2.1⟩,
    (C14_normalise plainEnv (fun c => (plainEnv_upper c).1) (fun c => (plainEnv_upper c).2)
      " Warning".toList).2.2.2.2.2 (by decide)⟩

/-! ## Segments in order, per attribute -/

theorem jsonFind_eq_first (E : Env V) (m : GoMap V) (keys : List Str) :
    jsonFind E m keys = ((firstPresent m keys).getD [], valueOf E m keys) := by
  induction keys with
  | nil => rfl
  | cons k keys ih =>
    unfold jsonFind firstPresent valueOf
    cases hk : mapGet m k with
    | some v => simp [firstPresent, hk]
    | none =>
      simp only [hk, Option.isSome_none, Bool.false_eq_true, if_false, firstPresent]
      rw [ih]
      rfl

theorem not_consumed_iff (o : Option Str) (k : Str) (hk : k ≠ []) :
    k ≠ o.getD [] ↔ some k ≠ o := by
  cases o with
  | none => simp [hk]
  | some a => simp

theorem formatTime_eq_render (E : Env V) (ts : Str) :
    formatTime E ts = E.render Style.time (timeText E ts) := by
  unfold formatTime timeText
  cases timeFormats.findSome? (fun layout => E.timeParse layout ts) <;> rfl

theorem logfmtParts_render (E : Env V) (f : Fields) (opts : Options) :
    (logfmtParts E f opts).map (Seg.render E) =
      segmentsInOrder E f.ts f.level f.msg opts.TimeOnly (E.rangeKV f.kvMap) := by
  unfold logfmtParts segmentsInOrder
  rw [List.map_append, headParts_render, formatTime_eq_render, formatLevel_eq_render]
  by_cases hT : opts.TimeOnly = true
  · simp [hT]
  · have hT2 : opts.TimeOnly = false := by simpa using hT
    simp only [hT2, Bool.false_eq_true, not_false_eq_true, if_true, if_false, List.map_map]
    rfl

/-- C16, as the code has it: for a line that passes the substring filter and the
severity filter, and with `range` visiting every entry of the map once, the output of
`FormatLine` is the single-space join of `segmentsInOrder`: the timestamp segment (if
the timestamp is not empty), the level segment (if the level is not empty), the
message segment (if the message is not empty) and, only when `TimeOnly` is not set,
one `key=value` segment per attribute, the attributes in some order; with `TimeOnly`
set there is no attribute segment.  For a logfmt line the attributes are the entries
of the attribute map and this holds whenever there is at least one segment; a logfmt
line without any segment is returned as the Plain rendering of the trimmed line.  For
a decoded JSON object without an empty-string key the attributes are the entries
whose key is not consumed as level, message or timestamp. -/
theorem C16_segment_order (E : Env V) (raw : Str) (opts : Options)
    (h0 : trimSpace raw ≠ [])
    (hf : opts.Filter = [] ∨
      contains (toLower E (trimSpace raw)) (toLower E opts.Filter) = true) :
    (hasPrefix (trimSpace raw) ['{'] = false → '=' ∈ trimSpace raw →
      ∀ pairs, parseLogfmt (trimSpace raw) = .ok pairs →
        belowMin E opts (collect E pairs).level = false →
        (E.rangeKV (collect E pairs).kvMap).Perm (collect E pairs).kvMap →
        ∃ attrs, attrs.Perm (collect E pairs).kvMap ∧
          (segmentsInOrder E (collect E pairs).ts (collect E pairs).level
              (collect E pairs).msg opts.TimeOnly attrs ≠ [] →
            FormatLine E raw opts = .ok (join (segmentsInOrder E (collect E pairs).ts
              (collect E pairs).level (collect E pairs).msg opts.TimeOnly attrs) [' '])) ∧
          (segmentsInOrder E (collect E pairs).ts (collect E pairs).level
              (collect E pairs).msg opts.TimeOnly attrs = [] →
            FormatLine E raw opts = .ok (E.render Style.unknown (trimSpace raw)))) ∧
    (hasPrefix (trimSpace raw) ['{'] = true →
      ∀ m, E.unmarshal (trimSpace raw) = some m → (∀ kv ∈ m, kv.1 ≠ []) →
        belowMin E opts (valueOf E m jsonLevelKeys) = false →
        (E.rangeJSON m).Perm m →
        ∃ attrs, attrs.Perm (jsonAttrs E m) ∧
          FormatLine E raw opts = .ok (join (segmentsInOrder E (valueOf E m jsonTimeKeys)
            (valueOf E m jsonLevelKeys) (valueOf E m jsonMsgKeys) opts.TimeOnly attrs)
            [' '])) := by
  have c2 : ¬ (opts.Filter ≠ [] ∧
      ¬ contains (toLower E (trimSpace raw)) (toLower E opts.Filter) = true) := by
    rintro ⟨h1, h2⟩
    rcases hf with hf | hf
    · exact h1 hf
    · exact h2 hf
  constructor
  · intro hj he pairs hp hmin hperm
    have c3 : ¬ hasPrefix (trimSpace raw) ['{'] = true := by simp [hj]
    have c4 : contains (trimSpace raw) ['='] = true := (contains_eq_mem _ _).mpr he
    have hfl : FormatLine E raw opts = formatLogfmt E (trimSpace raw) opts := by
      unfold FormatLine
      rw [if_neg h0, if_neg c2, if_neg c3, if_pos c4]
    refine ⟨E.rangeKV (collect E pairs).kvMap, hperm, ?_, ?_⟩
    · intro hne
      have hlen : (logfmtParts E (collect E pairs) opts).length ≠ 0 := by
        intro hz
        rw [List.length_eq_zero] at hz
        apply hne
        rw [← logfmtParts_render, hz]
        rfl
      rw [hfl]
      unfold formatLogfmt
      simp only [hp, hmin, Bool.false_eq_true, if_false, hlen, logfmtParts_render]
    · intro hnil
      have hlen : (logfmtParts E (collect E pairs) opts).length = 0 := by
        rw [← logfmtParts_render] at hnil
        rw [List.length_eq_zero]
        exact List.map_eq_nil_iff.mp hnil
      rw [hfl]
      unfold formatLogfmt
      simp only [hp, hmin, Bool.false_eq_true, if_false, hlen, if_true, formatPlain]
  · intro hj m hm hne hmin hperm
    have hL := jsonFind_eq_first E m jsonLevelKeys
    have hM := jsonFind_eq_first E m jsonMsgKeys
    have hTi := jsonFind_eq_first E m jsonTimeKeys
    have hmin2 : belowMin E opts (jsonFind E m jsonLevelKeys).2 = false := by
      rw [hL]; exact hmin
    have old := (segment_order_explicit E raw opts h0 hf).2 hj m hm hmin2
    rw [hL, hM, hTi] at old
    simp only [] at old
    refine ⟨((E.rangeJSON m).filter (fun kv => decide (kv.1 ∉
        [(firstPresent m jsonLevelKeys).getD [], (firstPresent m jsonMsgKeys).getD [],
          (firstPresent m jsonTimeKeys).getD []]))).map (fun kv => (kv.1, E.sprintV kv.2)),
      ?_, ?_⟩
    · unfold jsonAttrs
      apply List.Perm.map
      have hcongr : (E.rangeJSON m).filter (fun kv => decide (kv.1 ∉
          [(firstPresent m jsonLevelKeys).getD [], (firstPresent m jsonMsgKeys).getD [],
            (firstPresent m jsonTimeKeys).getD []])) =
          (E.rangeJSON m).filter (fun kv => decide (some kv.1 ≠ firstPresent m jsonLevelKeys ∧
            some kv.1 ≠ firstPresent m jsonMsgKeys ∧
            some kv.1 ≠ firstPresent m jsonTimeKeys)) := by
        apply List.filter_congr
        intro kv hkv
        have hk := hne kv (hperm.subset hkv)
        have e1 := not_consumed_iff (firstPresent m jsonLevelKeys) kv.1 hk
        have e2 := not_consumed_iff (firstPresent m jsonMsgKeys) kv.1 hk
        have e3 := not_consumed_iff (firstPresent m jsonTimeKeys) kv.1 hk
        simp only [List.mem_cons, List.mem_singleton, List.not_mem_nil, or_false, not_or,
          decide_eq_decide]
        rw [← ne_eq, ← ne_eq, ← ne_eq, e1, e2, e3]
      rw [hcongr]
      exact List.Perm.filter _ hperm
    · rw [old, formatTime_eq_render, formatLevel_eq_render]
      unfold segmentsInOrder
      simp only [List.map_map]
      rfl

/-- Witness of C16: `level=warn msg="disk low" host=web1`. -/
theorem C16_segment_order_witness :
    ∃ attrs, attrs.Perm (collect plainEnv [⟨"level".toList, "warn".toList⟩,
        ⟨"msg".toList, "disk low".toList⟩, ⟨"host".toList, "web1".toList⟩]).kvMap ∧
      (segmentsInOrder plainEnv [] "warn".toList "disk low".toList false attrs ≠ [] →
        FormatLine plainEnv "level=warn msg=\"disk low\" host=web1".toList noOpts =
          .ok (join (segmentsInOrder plainEnv [] "warn".toList "disk low".toList false attrs)
            [' '])) ∧
      (segmentsInOrder plainEnv [] "warn".toList "disk low".toList false attrs = [] →
        FormatLine plainEnv "level=warn msg=\"disk low\" host=web1".toList noOpts =
          .ok (plainEnv.render Style.unknown
            (trimSpace "level=warn msg=\"disk low\" host=web1".toList))) :=
  (C16_segment_order plainEnv "level=warn msg=\"disk low\" host=web1".toList noOpts
    (by decide) (Or.inl rfl)).1 (by decide) (by decide)
    [⟨"level".toList, "warn".toList⟩, ⟨"msg".toList, "disk low".toList⟩,
      ⟨"host".toList, "web1".toList⟩] (by decide) (by decide) (List.Perm.refl _)

/-- C16 as stated fails in two places.  A logfmt line without any segment: `level=`
passes the filters, its level, message and timestamp are empty and it has no
attribute, so the join of its segments is the empty string, but `formatLogfmt` returns
the Plain rendering of the line.  A JSON object with an empty-string key: for the
object with the keys `""` and `level` the entry of `""` is an attribute, but the
output is the level segment alone. -/
theorem C16_counterexample :
    (parseLogfmt "level=".toList = .ok [⟨"level".toList, []⟩] ∧
      segmentsInOrder plainEnv (collect plainEnv [⟨"level".toList, []⟩]).ts
        (collect plainEnv [⟨"level".toList, []⟩]).level
        (collect plainEnv [⟨"level".toList, []⟩]).msg false
        (collect plainEnv [⟨"level".toList, []⟩]).kvMap = [] ∧
      FormatLine plainEnv "level=".toList noOpts =
        .ok (formatPlain plainEnv "level=".toList noOpts) ∧
      FormatLine plainEnv "level=".toList noOpts ≠ .ok (join [] [' '])) ∧
    (sampleUnmarshal "\x7b\"\":1,\"level\":\"info\"\x7d".toList =
        some [([], "1".toList), ("level".toList, "info".toList)] ∧
      jsonAttrs plainEnv [([], "1".toList), ("level".toList, "info".toList)] =
        [([], "1".toList)] ∧
      FormatLine plainEnv "\x7b\"\":1,\"level\":\"info\"\x7d".toList noOpts =
        .ok "INFO ".toList ∧
      FormatLine plainEnv "\x7b\"\":1,\"level\":\"info\"\x7d".toList noOpts ≠
        .ok (join (segmentsInOrder plainEnv
          (valueOf plainEnv [([], "1".toList), ("level".toList, "info".toList)] jsonTimeKeys)
          (valueOf plainEnv [([], "1".toList), ("level".toList, "info".toList)] jsonLevelKeys)
          (valueOf plainEnv [([], "1".toList), ("level".toList, "info".toList)] jsonMsgKeys)
          false [([], "1".toList)]) [' '])) := by
  decide

end Logfmt
